import Mathlib

/-!
Verification development for the target-assignment / loss / NMS core of a
YOLO-family detector (`utils/general.py`).

Conventions of the embedding:
* Python/NumPy/PyTorch floats are modelled as exact rationals (`ℚ`) wherever the
  source contains no transcendental function, so that every definition is
  executable and concrete claims can be settled by `decide`.  The loss path
  (`compute_loss`, `bbox_iou` with its CIoU branch) uses `ℝ` because it involves
  `sigmoid`, `log` and `arctan`.
* Tensors of box rows become `List`s of tuples/records; elementwise tensor
  arithmetic becomes arithmetic on the components.
* `.long()` (truncation towards zero) is `ratTrunc`; the tensor `% 1.` on
  nonnegative operands is `Int.fract`.
-/

namespace YoloV5

/-- `t.long()` : truncation of a rational towards zero, as PyTorch `.long()`. -/
def ratTrunc (q : ℚ) : ℤ := if 0 ≤ q then ⌊q⌋ else -⌊-q⌋

/-- The additive epsilon `1e-16` used by `bbox_iou` (exact rational). -/
def epsQ : ℚ := 1 / 10 ^ 16

/-- The additive epsilon `1e-16` used by `bbox_iou` (as a real). -/
noncomputable def epsR : ℝ := 1 / 10 ^ 16

/-! ## Box format conversions (`xyxy2xywh`, `xywh2xyxy`) -/

/-- One row of `xyxy2xywh`: `[x1,y1,x2,y2] ↦ [cx,cy,w,h]`. -/
def xyxy2xywh_row : ℚ × ℚ × ℚ × ℚ → ℚ × ℚ × ℚ × ℚ
  | (x1, y1, x2, y2) => ((x1 + x2) / 2, (y1 + y2) / 2, x2 - x1, y2 - y1)

/-- One row of `xywh2xyxy`: `[cx,cy,w,h] ↦ [x1,y1,x2,y2]`. -/
def xywh2xyxy_row : ℚ × ℚ × ℚ × ℚ → ℚ × ℚ × ℚ × ℚ
  | (x, y, w, h) => (x - w / 2, y - h / 2, x + w / 2, y + h / 2)

/-- `xyxy2xywh` on an n×4 tensor of boxes (elementwise, row by row). -/
def xyxy2xywh (l : List (ℚ × ℚ × ℚ × ℚ)) : List (ℚ × ℚ × ℚ × ℚ) :=
  l.map xyxy2xywh_row

/-- `xywh2xyxy` on an n×4 tensor of boxes (elementwise, row by row). -/
def xywh2xyxy (l : List (ℚ × ℚ × ℚ × ℚ)) : List (ℚ × ℚ × ℚ × ℚ) :=
  l.map xywh2xyxy_row

/-! ## `box_iou` (pairwise IoU matrix, torchvision formulation) -/

/-- `box_area` of an xyxy box, as in `box_iou`. -/
def box_area : ℚ × ℚ × ℚ × ℚ → ℚ
  | (x1, y1, x2, y2) => (x2 - x1) * (y2 - y1)

/-- Intersection area of two xyxy boxes:
`(min(rb) - max(lt)).clamp(0).prod(2)`. -/
def box_inter : (ℚ × ℚ × ℚ × ℚ) → (ℚ × ℚ × ℚ × ℚ) → ℚ
  | (ax1, ay1, ax2, ay2), (bx1, by1, bx2, by2) =>
    max (min ax2 bx2 - max ax1 bx1) 0 * max (min ay2 by2 - max ay1 by1) 0

/-- The denominator of the single division in `box_iou`:
`area1 + area2 - inter` (note: no epsilon in the source). -/
def box_iou_denom (b1 b2 : ℚ × ℚ × ℚ × ℚ) : ℚ :=
  box_area b1 + box_area b2 - box_inter b1 b2

/-- One entry of the `box_iou` matrix: `inter / (area1 + area2 - inter)`. -/
def box_iou_pair (b1 b2 : ℚ × ℚ × ℚ × ℚ) : ℚ :=
  box_inter b1 b2 / box_iou_denom b1 b2

/-- `box_iou`: the full N×M pairwise IoU matrix. -/
def box_iou (l1 l2 : List (ℚ × ℚ × ℚ × ℚ)) : List (List ℚ) :=
  l1.map fun b1 => l2.map fun b2 => box_iou_pair b1 b2

/-! ## `wh_iou` (shape-only IoU) -/

/-- Intersection term of `wh_iou`: `torch.min(wh1, wh2).prod(2)`. -/
def wh_inter : (ℚ × ℚ) → (ℚ × ℚ) → ℚ
  | (w1, h1), (w2, h2) => min w1 w2 * min h1 h2

/-- The denominator of the single division in `wh_iou`:
`wh1.prod(2) + wh2.prod(2) - inter` (note: no epsilon in the source). -/
def wh_iou_denom (wh1 wh2 : ℚ × ℚ) : ℚ :=
  wh1.1 * wh1.2 + wh2.1 * wh2.2 - wh_inter wh1 wh2

/-- One entry of the `wh_iou` matrix. -/
def wh_iou_pair (wh1 wh2 : ℚ × ℚ) : ℚ :=
  wh_inter wh1 wh2 / wh_iou_denom wh1 wh2

/-- `wh_iou`: the full n×m shape-IoU matrix. -/
def wh_iou (l1 l2 : List (ℚ × ℚ)) : List (List ℚ) :=
  l1.map fun a => l2.map fun b => wh_iou_pair a b

/-! ## `bbox_iou` with GIoU / DIoU / CIoU variants (real-valued: CIoU uses arctan) -/

/-- Corner extraction of `bbox_iou`: either the box is already
`[x1,y1,x2,y2]`, or it is `[x,y,w,h]` and gets converted. -/
noncomputable def bboxCorners (x1y1x2y2 : Bool) : ℝ × ℝ × ℝ × ℝ → ℝ × ℝ × ℝ × ℝ
  | (a, b, c, d) =>
    if x1y1x2y2 then (a, b, c, d)
    else (a - c / 2, b - d / 2, a + c / 2, b + d / 2)

/-- Intersection area inside `bbox_iou` (both clamped at 0). -/
noncomputable def bboxInter : (ℝ × ℝ × ℝ × ℝ) → (ℝ × ℝ × ℝ × ℝ) → ℝ
  | (ax1, ay1, ax2, ay2), (bx1, by1, bx2, by2) =>
    max (min ax2 bx2 - max ax1 bx1) 0 * max (min ay2 by2 - max ay1 by1) 0

/-- The union denominator of `bbox_iou`: `(w1*h1 + 1e-16) + w2*h2 - inter`. -/
noncomputable def bboxUnion : (ℝ × ℝ × ℝ × ℝ) → (ℝ × ℝ × ℝ × ℝ) → ℝ
  | (ax1, ay1, ax2, ay2), (bx1, by1, bx2, by2) =>
    ((ax2 - ax1) * (ay2 - ay1) + epsR) + (bx2 - bx1) * (by2 - by1) -
      bboxInter (ax1, ay1, ax2, ay2) (bx1, by1, bx2, by2)

/-- Plain IoU term of `bbox_iou` (on extracted corners). -/
noncomputable def bboxIoUPlain (c1 c2 : ℝ × ℝ × ℝ × ℝ) : ℝ :=
  bboxInter c1 c2 / bboxUnion c1 c2

/-- Convex (smallest enclosing box) width of `bbox_iou`. -/
noncomputable def bboxCW : (ℝ × ℝ × ℝ × ℝ) → (ℝ × ℝ × ℝ × ℝ) → ℝ
  | (ax1, _, ax2, _), (bx1, _, bx2, _) => max ax2 bx2 - min ax1 bx1

/-- Convex height of `bbox_iou`. -/
noncomputable def bboxCH : (ℝ × ℝ × ℝ × ℝ) → (ℝ × ℝ × ℝ × ℝ) → ℝ
  | (_, ay1, _, ay2), (_, by1, _, by2) => max ay2 by2 - min ay1 by1

/-- GIoU denominator: `c_area = cw * ch + 1e-16`. -/
noncomputable def bboxCArea (c1 c2 : ℝ × ℝ × ℝ × ℝ) : ℝ :=
  bboxCW c1 c2 * bboxCH c1 c2 + epsR

/-- DIoU/CIoU denominator: convex diagonal squared `c2 = cw**2 + ch**2 + 1e-16`. -/
noncomputable def bboxC2 (c1 c2 : ℝ × ℝ × ℝ × ℝ) : ℝ :=
  bboxCW c1 c2 ^ 2 + bboxCH c1 c2 ^ 2 + epsR

/-- Centerpoint distance squared `rho2` of `bbox_iou`. -/
noncomputable def bboxRho2 : (ℝ × ℝ × ℝ × ℝ) → (ℝ × ℝ × ℝ × ℝ) → ℝ
  | (ax1, ay1, ax2, ay2), (bx1, by1, bx2, by2) =>
    ((bx1 + bx2) - (ax1 + ax2)) ^ 2 / 4 + ((by1 + by2) - (ay1 + ay2)) ^ 2 / 4

/-- The aspect-ratio consistency term `v` of CIoU. -/
noncomputable def bboxV : (ℝ × ℝ × ℝ × ℝ) → (ℝ × ℝ × ℝ × ℝ) → ℝ
  | (ax1, ay1, ax2, ay2), (bx1, by1, bx2, by2) =>
    4 / Real.pi ^ 2 *
      (Real.arctan ((bx2 - bx1) / (by2 - by1)) -
        Real.arctan ((ax2 - ax1) / (ay2 - ay1))) ^ 2

/-- The CIoU `alpha` denominator: `1 - iou + v + 1e-16`. -/
noncomputable def bboxAlphaDenom (c1 c2 : ℝ × ℝ × ℝ × ℝ) : ℝ :=
  1 - bboxIoUPlain c1 c2 + bboxV c1 c2 + epsR

/-- `bbox_iou(box1, box2, x1y1x2y2, GIoU, DIoU, CIoU)`: scalar IoU of two boxes
with the optional GIoU/DIoU/CIoU adjustment, following the source control flow. -/
noncomputable def bbox_iou (box1 box2 : ℝ × ℝ × ℝ × ℝ) (x1y1x2y2 GIoU DIoU CIoU : Bool) : ℝ :=
  let c1 := bboxCorners x1y1x2y2 box1
  let c2 := bboxCorners x1y1x2y2 box2
  let iou := bboxIoUPlain c1 c2
  if GIoU || DIoU || CIoU then
    if GIoU then
      let c_area := bboxCArea c1 c2
      iou - (c_area - bboxUnion c1 c2) / c_area
    else if DIoU then
      iou - bboxRho2 c1 c2 / bboxC2 c1 c2
    else if CIoU then
      let v := bboxV c1 c2
      let alpha := v / bboxAlphaDenom c1 c2
      iou - (bboxRho2 c1 c2 / bboxC2 c1 c2 + v * alpha)
    else iou
  else iou

/-! ## `compute_ap` (average precision, 101-point COCO interpolation) -/

/-- `np.maximum.accumulate`: running (prefix) maxima, with an accumulator. -/
def accumMaxAux (m : ℚ) : List ℚ → List ℚ
  | [] => []
  | a :: t => max m a :: accumMaxAux (max m a) t

/-- `np.maximum.accumulate` on a list: `out[i] = max l[0..i]`. -/
def accumMax : List ℚ → List ℚ
  | [] => []
  | a :: t => a :: accumMaxAux a t

/-- The precision envelope of `compute_ap`:
`mpre = np.flip(np.maximum.accumulate(np.flip(mpre)))`. -/
def precEnvelope (mpre : List ℚ) : List ℚ :=
  (accumMax mpre.reverse).reverse

/-- `np.interp` on the knot list `(xp i, fp i)` (piecewise-linear, constant
extrapolation; at the rightmost knot the value is the last `fp`). -/
def interpAux (x : ℚ) : List (ℚ × ℚ) → ℚ
  | [] => 0
  | [(_, y1)] => y1
  | (x1, y1) :: (x2, y2) :: rest =>
    if x < x1 then y1
    else if x < x2 then
      if x2 = x1 then y1 else y1 + (y2 - y1) * (x - x1) / (x2 - x1)
    else interpAux x ((x2, y2) :: rest)

/-- `np.interp(x, xp, fp)`. -/
def interp (x : ℚ) (xp fp : List ℚ) : ℚ :=
  interpAux x (xp.zip fp)

/-- `np.trapz(y, x)`: trapezoidal integration of samples `y` over grid `x`. -/
def trapz : List ℚ → List ℚ → ℚ
  | y1 :: y2 :: ys, x1 :: x2 :: xs => (x2 - x1) * (y1 + y2) / 2 + trapz (y2 :: ys) (x2 :: xs)
  | _, _ => 0

/-- `[0, 1, ..., n-1]` by structural recursion (kernel-reducible range). -/
def natsBelow : ℕ → List ℕ
  | 0 => []
  | n + 1 => natsBelow n ++ [n]

/-- The 101-point recall grid `np.linspace(0, 1, 101)`. -/
def apGrid : List ℚ := (natsBelow 101).map fun k => (k : ℚ) / 100

/-- `compute_ap(recall, precision)`: sentinel-padded curves, monotone precision
envelope, then 101-point interpolated trapezoidal integration (COCO). -/
def compute_ap (recl prec : List ℚ) : ℚ :=
  let mrec := 0 :: (recl ++ [min (recl.getLastD 0 + 1 / 1000) 1])
  let mpre := 0 :: (prec ++ [0])
  let env := precEnvelope mpre
  trapz (apGrid.map fun x => interp x mrec env) apGrid

/-! ## Prop-valued list helpers (filter / count with decidable predicates) -/

/-- Boolean-mask selection `t[j]` on a list, with a decidable predicate. -/
def filterP (P : α → Prop) [DecidablePred P] : List α → List α
  | [] => []
  | a :: t => if P a then a :: filterP P t else filterP P t

/-- Number of elements satisfying a decidable predicate. -/
def countWhere (P : α → Prop) [DecidablePred P] : List α → ℕ
  | [] => 0
  | a :: t => (if P a then 1 else 0) + countWhere P t

/-! ## `build_targets` data model -/

/-- One ground-truth row `(image, class, x, y, w, h)`, all coordinates
normalized to `[0,1]`. -/
structure Tgt where
  img : ℚ
  cls : ℚ
  x : ℚ
  y : ℚ
  w : ℚ
  h : ℚ
deriving DecidableEq

/-- One (ground-truth × anchor) candidate at a given scale, after multiplying
by `gain` (coordinates in grid-cell units) and appending the anchor index:
one row of the `na × nt × 7` tensor `t = targets * gain`. -/
structure Cand where
  tgt : Tgt
  ai : ℕ
  aw : ℚ
  ah : ℚ
  gx : ℚ
  gy : ℚ
  gw : ℚ
  gh : ℚ
deriving DecidableEq

/-- Candidates for the anchors from index `ai` on (anchor-major order, as the
`na × nt` tensor layout). -/
def scaleCandsAux (gwN ghN : ℕ) (targets : List Tgt) (ai : ℕ) :
    List (ℚ × ℚ) → List Cand
  | [] => []
  | a :: rest =>
    (targets.map fun t =>
      { tgt := t, ai := ai, aw := a.1, ah := a.2,
        gx := t.x * gwN, gy := t.y * ghN, gw := t.w * gwN, gh := t.h * ghN })
      ++ scaleCandsAux gwN ghN targets (ai + 1) rest

/-- `targets.repeat(na,1,1)` with anchor indices `ai` appended, times `gain`:
anchor-major enumeration of all (anchor, ground-truth) candidates. -/
def scaleCands (gwN ghN : ℕ) (anchors : List (ℚ × ℚ)) (targets : List Tgt) :
    List Cand :=
  scaleCandsAux gwN ghN targets 0 anchors

/-- `torch.max(r, 1./r).max(2)[0]` for `r = wh / anchor` of one candidate. -/
def ratioMax (gw gh aw ah : ℚ) : ℚ :=
  max (max (gw / aw) (aw / gw)) (max (gh / ah) (ah / gh))

/-- The shape filter `j`: `max(r, 1/r).max(2)[0] < model.hyp['anchor_t']`. -/
def shapeOK (thr : ℚ) (c : Cand) : Prop :=
  ratioMax c.gw c.gh c.aw c.ah < thr

instance (thr : ℚ) : DecidablePred (shapeOK thr) := fun c => by
  unfold shapeOK; infer_instance

/-- `t = t[j]`: candidates surviving the shape filter. -/
def survivors (thr : ℚ) (gwN ghN : ℕ) (anchors : List (ℚ × ℚ))
    (targets : List Tgt) : List Cand :=
  filterP (shapeOK thr) (scaleCands gwN ghN anchors targets)

/-- Neighbor flag `j` (left cell): `gxy % 1. < g  ∧  gxy > 1.` on x. -/
def flagJ (c : Cand) : Prop := Int.fract c.gx < 1 / 2 ∧ 1 < c.gx

/-- Neighbor flag `k` (upper cell): same condition on y. -/
def flagK (c : Cand) : Prop := Int.fract c.gy < 1 / 2 ∧ 1 < c.gy

/-- Neighbor flag `l` (right cell): the condition on the inverse coordinate
`gxi = gain - gxy`, x component. -/
def flagL (gwN : ℕ) (c : Cand) : Prop :=
  Int.fract ((gwN : ℚ) - c.gx) < 1 / 2 ∧ 1 < (gwN : ℚ) - c.gx

/-- Neighbor flag `m` (lower cell): inverse coordinate condition on y. -/
def flagM (ghN : ℕ) (c : Cand) : Prop :=
  Int.fract ((ghN : ℚ) - c.gy) < 1 / 2 ∧ 1 < (ghN : ℚ) - c.gy

instance : DecidablePred flagJ := fun c => by unfold flagJ; infer_instance
instance : DecidablePred flagK := fun c => by unfold flagK; infer_instance
instance (gwN : ℕ) : DecidablePred (flagL gwN) := fun c => by
  unfold flagL; infer_instance
instance (ghN : ℕ) : DecidablePred (flagM ghN) := fun c => by
  unfold flagM; infer_instance

/-- One emitted assignment: a surviving candidate paired with the offset of the
cell that receives it (`(0,0)`, `(±1/2,0)` or `(0,±1/2)`). -/
structure ARow where
  cand : Cand
  offx : ℚ
  offy : ℚ
deriving DecidableEq

/-- `t.repeat((5,1,1))[j]` with the matching `offsets`: the origin copy of every
surviving candidate followed by the copies selected by the four axis-aligned
neighbor flags, in source order (`0, j, k, l, m`).  When the batch carries no
ground-truth (`nt == 0`) the result is empty. -/
def scaleRows (thr : ℚ) (gwN ghN : ℕ) (anchors : List (ℚ × ℚ))
    (targets : List Tgt) : List ARow :=
  if targets = [] then []
  else
    let surv := survivors thr gwN ghN anchors targets
    (surv.map fun c => ⟨c, 0, 0⟩)
      ++ ((filterP flagJ surv).map fun c => ⟨c, 1 / 2, 0⟩)
      ++ ((filterP flagK surv).map fun c => ⟨c, 0, 1 / 2⟩)
      ++ ((filterP (flagL gwN) surv).map fun c => ⟨c, -(1 / 2), 0⟩)
      ++ ((filterP (flagM ghN) surv).map fun c => ⟨c, 0, -(1 / 2)⟩)

/-- Observable for the claims: how many assignments one candidate receives at
one scale (rows of `scaleRows` whose candidate is `c`). -/
def assignCount (thr : ℚ) (gwN ghN : ℕ) (anchors : List (ℚ × ℚ))
    (targets : List Tgt) (c : Cand) : ℕ :=
  countWhere (fun r : ARow => r.cand = c) (scaleRows thr gwN ghN anchors targets)

/-- `gi`: the x grid index `(gxy - offsets).long()` of an assignment. -/
def rowGI (r : ARow) : ℤ := ratTrunc (r.cand.gx - r.offx)

/-- `gj`: the y grid index of an assignment. -/
def rowGJ (r : ARow) : ℤ := ratTrunc (r.cand.gy - r.offy)

/-- Per-scale output tuple of `build_targets`. -/
structure ScaleOut where
  tcls : List ℤ
  tbox : List (ℚ × ℚ × ℚ × ℚ)
  indices : List (ℤ × ℕ × ℤ × ℤ)
  anch : List (ℚ × ℚ)
  ttar : List (ℚ × ℚ × ℚ × ℚ)
deriving DecidableEq

/-- Assemble one scale's `(tcls, tbox, indices, anch, ttar)` from its rows. -/
def buildScale (thr : ℚ) (gwN ghN : ℕ) (anchors : List (ℚ × ℚ))
    (targets : List Tgt) : ScaleOut :=
  let rows := scaleRows thr gwN ghN anchors targets
  { tcls := rows.map fun r => ratTrunc r.cand.tgt.cls
    tbox := rows.map fun r =>
      (r.cand.gx - rowGI r, r.cand.gy - rowGJ r, r.cand.gw, r.cand.gh)
    indices := rows.map fun r => (ratTrunc r.cand.tgt.img, r.cand.ai, rowGJ r, rowGI r)
    anch := rows.map fun r => (r.cand.aw, r.cand.ah)
    ttar := rows.map fun r => (r.cand.gx, r.cand.gy, r.cand.gw, r.cand.gh) }

/-- `build_targets`: one `ScaleOut` per detection scale; a scale is described by
its grid size `(gw, gh)` (from `p[i].shape`) and its anchor set. -/
def build_targets (scales : List (ℕ × ℕ × List (ℚ × ℚ))) (thr : ℚ)
    (targets : List Tgt) : List ScaleOut :=
  scales.map fun s => buildScale thr s.1 s.2.1 s.2.2 targets

/-! ## `non_max_suppression` (per image, `merge=False` path) -/

/-- One raw prediction row: `(x, y, w, h, objectness, class scores)`. -/
structure PRow where
  x : ℚ
  y : ℚ
  w : ℚ
  h : ℚ
  obj : ℚ
  cls : List ℚ
deriving DecidableEq

/-- One detection row `(x1, y1, x2, y2, conf, cls)`. -/
structure Det where
  box : ℚ × ℚ × ℚ × ℚ
  conf : ℚ
  cls : ℚ
deriving DecidableEq

/-- `max(1)` with index over a score list (first maximal element wins ties). -/
def listMaxIdxAux (best : ℚ) (bi i : ℕ) : List ℚ → ℚ × ℕ
  | [] => (best, bi)
  | a :: t =>
    if best < a then listMaxIdxAux a i (i + 1) t else listMaxIdxAux best bi (i + 1) t

/-- `conf, j = x[:, 5:].max(1)` for one row. -/
def listMaxIdx : List ℚ → ℚ × ℕ
  | [] => (0, 0)
  | a :: t => listMaxIdxAux a 0 1 t

/-- Class scores with their indices, as `nonzero` enumerates them. -/
def enumScores (i : ℕ) : List ℚ → List (ℕ × ℚ)
  | [] => []
  | s :: t => (i, s) :: enumScores (i + 1) t

/-- Candidate detections of one image: objectness filter
(`x[..., 4] > conf_thres`), `conf = obj_conf * cls_conf`, box conversion, then
either the multi-label expansion (`nc > 1`) or the best-class reduction, each
keeping only rows with `conf > conf_thres`. -/
def detCandidates (conf_thres : ℚ) (nc : ℕ) (rows : List PRow) : List Det :=
  let xs := filterP (fun r => conf_thres < r.obj) rows
  let scored := xs.map fun r => { r with cls := r.cls.map fun s => s * r.obj }
  if 1 < nc then
    scored.flatMap fun r =>
      (filterP (fun p => conf_thres < p.2) (enumScores 0 r.cls)).map fun p =>
        { box := xywh2xyxy_row (r.x, r.y, r.w, r.h), conf := p.2, cls := (p.1 : ℚ) }
  else
    filterP (fun d => conf_thres < d.conf)
      (scored.map fun r =>
        let m := listMaxIdx r.cls
        { box := xywh2xyxy_row (r.x, r.y, r.w, r.h), conf := m.1, cls := (m.2 : ℚ) })

/-- The class allow-list filter (`if classes:` — skipped when falsy). -/
def classFilter (classes : Option (List ℚ)) (dets : List Det) : List Det :=
  match classes with
  | none => dets
  | some cs => if cs = [] then dets else filterP (fun d => d.cls ∈ cs) dets

/-- Box offset by `class * max_wh` (`max_wh = 4096`), scoping suppression per
class unless class-agnostic. -/
def offBox (agnostic : Bool) (d : Det) : ℚ × ℚ × ℚ × ℚ :=
  let c := d.cls * (if agnostic then 0 else 4096)
  (d.box.1 + c, d.box.2.1 + c, d.box.2.2.1 + c, d.box.2.2.2 + c)

/-- The confidence-descending order used by the suppression sort. -/
def confGE (a b : Det) : Prop := b.conf ≤ a.conf

instance : DecidableRel confGE := fun a b =>
  inferInstanceAs (Decidable (b.conf ≤ a.conf))

instance : IsTotal Det confGE := ⟨fun a b => le_total b.conf a.conf⟩

instance : IsTrans Det confGE := ⟨fun _ _ _ h1 h2 => le_trans h2 h1⟩

/-- Sort detections by confidence, descending. -/
def sortByConfDesc (l : List Det) : List Det := List.insertionSort confGE l

/-- Greedy suppression (`torchvision.ops.boxes.nms`): accept the best remaining
box, drop every later box whose IoU with it exceeds the threshold, repeat
(structural fuel bounds the recursion by the list length). -/
def nmsGreedyAux (agnostic : Bool) (iou_thres : ℚ) : ℕ → List Det → List Det
  | 0, _ => []
  | _ + 1, [] => []
  | fuel + 1, d :: rest =>
    d :: nmsGreedyAux agnostic iou_thres fuel
      (filterP (fun e => ¬ iou_thres < box_iou_pair (offBox agnostic d) (offBox agnostic e))
        rest)

/-- Greedy suppression of a sorted candidate list. -/
def nmsGreedy (agnostic : Bool) (iou_thres : ℚ) (l : List Det) : List Det :=
  nmsGreedyAux agnostic iou_thres l.length l

/-- `max_det = 300`: maximum number of detections per image. -/
def max_det : ℕ := 300

/-- `non_max_suppression` for one image (`merge=False` path): candidate
construction, class allow-list, class-offset greedy NMS, `max_det` cap. -/
def non_max_suppression_image (conf_thres iou_thres : ℚ) (classes : Option (List ℚ))
    (agnostic : Bool) (nc : ℕ) (rows : List PRow) : List Det :=
  let x := classFilter classes (detCandidates conf_thres nc rows)
  let keep := nmsGreedy agnostic iou_thres (sortByConfDesc x)
  keep.take max_det

/-! ## `compute_loss` (real-valued) -/

/-- Hyperparameter mapping `model.hyp` (the entries `compute_loss` reads). -/
structure Hyp where
  giou : ℚ
  obj : ℚ
  cls : ℚ
  cls_pw : ℚ
  obj_pw : ℚ
  fl_gamma : ℚ
  anchor_t : ℚ

/-- The model metadata consumed by `compute_loss` / `build_targets`:
hyperparameters, objectness blend ratio `gr`, class count `nc` and the
per-scale anchor sets of the detection head. -/
structure DetectorModel where
  hyp : Hyp
  gr : ℚ
  nc : ℕ
  anchors : List (List (ℚ × ℚ))

/-- One scale's raw prediction tensor `p[i]`, shape
`(bs, na, gh, gw, 5+nc)`, as a total function on indices. -/
structure SPred where
  bs : ℕ
  na : ℕ
  gh : ℕ
  gw : ℕ
  val : ℤ → ℤ → ℤ → ℤ → ℕ → ℝ

/-- `torch.sigmoid`. -/
noncomputable def sigmoidR (x : ℝ) : ℝ := 1 / (1 + Real.exp (-x))

/-- One element of `nn.BCEWithLogitsLoss(pos_weight=pw)` (reduction-free):
`-(pw * z * log σ(x) + (1 - z) * log(1 - σ(x)))`. -/
noncomputable def bceElem (pw z x : ℝ) : ℝ :=
  -(pw * z * Real.log (sigmoidR x) + (1 - z) * Real.log (1 - sigmoidR x))

/-- One element of `FocalLoss(BCEWithLogitsLoss(pos_weight=pw), gamma=g)`
(default `alpha = 0.25`): the BCE element scaled by
`alpha_factor * (1 - p_t) ** gamma`. -/
noncomputable def focalElem (g pw z x : ℝ) : ℝ :=
  let pr := sigmoidR x
  let p_t := z * pr + (1 - z) * (1 - pr)
  let alpha_factor := z * (1 / 4) + (1 - z) * (1 - 1 / 4)
  bceElem pw z x * (alpha_factor * (1 - p_t) ^ g)

/-- The element criterion actually used: focal-wrapped BCE when
`fl_gamma > 0`, plain BCE otherwise. -/
noncomputable def criterionElem (g pw z x : ℝ) : ℝ :=
  if 0 < g then focalElem g pw z x else bceElem pw z x

/-- `smooth_BCE(eps)`: positive / negative label-smoothing targets. -/
noncomputable def smooth_BCE (e : ℝ) : ℝ × ℝ := (1 - 1 / 2 * e, 1 / 2 * e)

/-- `.mean()` of a list of reals. -/
noncomputable def listMeanR (l : List ℝ) : ℝ := l.sum / l.length

/-- Sum of `f` over the whole `(bs, na, gh, gw)` grid of one scale. -/
noncomputable def gridSum (bs na gh gw : ℕ) (f : ℤ → ℤ → ℤ → ℤ → ℝ) : ℝ :=
  ∑ b ∈ Finset.range bs, ∑ a ∈ Finset.range na, ∑ y ∈ Finset.range gh,
    ∑ x ∈ Finset.range gw, f b a y x

/-- `ps = pi[b, a, gj, gi]`, component `k`, for one assignment row. -/
noncomputable def psv (p : SPred) (r : ARow) (k : ℕ) : ℝ :=
  p.val (ratTrunc r.cand.tgt.img) (r.cand.ai) (rowGJ r) (rowGI r) k

/-- Decoded predicted box of one assignment row:
`pxy = sigmoid(ps[:, :2]) * 2 - 0.5`, `pwh = (sigmoid(ps[:, 2:4]) * 2)**2 * anchors`. -/
noncomputable def pboxOf (p : SPred) (r : ARow) : ℝ × ℝ × ℝ × ℝ :=
  (sigmoidR (psv p r 0) * 2 - 1 / 2,
   sigmoidR (psv p r 1) * 2 - 1 / 2,
   (sigmoidR (psv p r 2) * 2) ^ 2 * (r.cand.aw : ℝ),
   (sigmoidR (psv p r 3) * 2) ^ 2 * (r.cand.ah : ℝ))

/-- The regression target `tbox[i]` of one row, as reals. -/
noncomputable def tboxROf (r : ARow) : ℝ × ℝ × ℝ × ℝ :=
  (((r.cand.gx - rowGI r : ℚ) : ℝ), ((r.cand.gy - rowGJ r : ℚ) : ℝ),
   ((r.cand.gw : ℚ) : ℝ), ((r.cand.gh : ℚ) : ℝ))

/-- `giou = bbox_iou(pbox.T, tbox[i], x1y1x2y2=False, CIoU=True)` for one row. -/
noncomputable def giouOf (p : SPred) (r : ARow) : ℝ :=
  bbox_iou (pboxOf p r) (tboxROf r) false false false true

/-- The tensor index `(b, a, gj, gi)` of one assignment row. -/
def rowKey (r : ARow) : ℤ × ℤ × ℤ × ℤ :=
  (ratTrunc r.cand.tgt.img, (r.cand.ai : ℤ), rowGJ r, rowGI r)

/-- Pointwise update of a grid function (one tensor scatter write). -/
noncomputable def updFun (f : ℤ → ℤ → ℤ → ℤ → ℝ) (key : ℤ × ℤ × ℤ × ℤ) (v : ℝ) :
    ℤ → ℤ → ℤ → ℤ → ℝ :=
  fun b a y x => if (b, a, y, x) = key then v else f b a y x

/-- `tobj`: zeros, then `tobj[b, a, gj, gi] = (1 - gr) + gr * giou.detach().clamp(0)`
written row by row (duplicate indices: last write wins). -/
noncomputable def tobjOf (gr : ℝ) (p : SPred) (rows : List ARow) :
    ℤ → ℤ → ℤ → ℤ → ℝ :=
  rows.foldl
    (fun f r => updFun f (rowKey r) ((1 - gr) + gr * max (giouOf p r) 0))
    (fun _ _ _ _ => 0)

/-- `lobj` contribution of one scale (before the balance factor):
`BCEobj(pi[..., 4], tobj)` with mean reduction over the whole grid. -/
noncomputable def lobjOf (g pw : ℝ) (p : SPred) (tobj : ℤ → ℤ → ℤ → ℤ → ℝ) : ℝ :=
  gridSum p.bs p.na p.gh p.gw
      (fun b a y x => criterionElem g pw (tobj b a y x) (p.val b a y x 4)) /
    ((p.bs * p.na * p.gh * p.gw : ℕ) : ℝ)

/-- `lcls` contribution of one scale: `BCEcls(ps[:, 5:], t)` with the one-hot
target built from `smooth_BCE(0.0)` (`cp = 1`, `cn = 0`), mean over `n × nc`. -/
noncomputable def lclsOf (g pw : ℝ) (nc : ℕ) (p : SPred) (rows : List ARow) : ℝ :=
  (rows.map fun r =>
      ∑ c ∈ Finset.range nc,
        criterionElem g pw
          (if (c : ℤ) = ratTrunc r.cand.tgt.cls then (smooth_BCE 0).1 else (smooth_BCE 0).2)
          (psv p r (5 + c))).sum /
    ((rows.length * nc : ℕ) : ℝ)

/-- The per-scale objectness balance `[4.0, 1.0, 0.4]` (P3-5) or
`[4.0, 1.0, 0.4, 0.1]` (P3-6). -/
noncomputable def balance (np i : ℕ) : ℝ :=
  if np = 3 then [4, 1, 0.4].getD i 0 else [4, 1, 0.4, 0.1].getD i 0

/-- Accumulate `(lbox, lobj, lcls)` over the scales, scale index `i` tracking
the balance position. -/
noncomputable def lossScales (g cls_pw obj_pw gr : ℝ) (thr : ℚ) (nc np : ℕ)
    (targets : List Tgt) : ℕ → List (SPred × List (ℚ × ℚ)) → ℝ × ℝ × ℝ
  | _, [] => (0, 0, 0)
  | i, (sp, anchors) :: rest =>
    let rows := scaleRows thr sp.gw sp.gh anchors targets
    let lbox_i := if rows ≠ [] then listMeanR (rows.map fun r => 1 - giouOf sp r) else 0
    let lobj_i := lobjOf g obj_pw sp (tobjOf gr sp rows) * balance np i
    let lcls_i := if 1 < nc ∧ rows ≠ [] then lclsOf g cls_pw nc sp rows else 0
    let rec_ := lossScales g cls_pw obj_pw gr thr nc np targets (i + 1) rest
    (lbox_i + rec_.1, lobj_i + rec_.2.1, lcls_i + rec_.2.2)

/-- The value returned by `compute_loss`: scaled total `loss * bs` and the
detached breakdown `(lbox, lobj, lcls, loss)`. -/
structure LossOut where
  total : ℝ
  lbox : ℝ
  lobj : ℝ
  lcls : ℝ
  lsum : ℝ

/-- `compute_loss(p, targets, model)` (visualization call omitted): assignments
via `build_targets`, CIoU box loss, blended objectness targets, optional
focal wrapping, per-scale balance, output-count scaling `s = 3 / np`,
batch-size scaling of the returned total. -/
noncomputable def compute_loss (p : List SPred) (targets : List Tgt)
    (m : DetectorModel) : LossOut :=
  let np := p.length
  let s : ℝ := 3 / np
  let acc := lossScales (m.hyp.fl_gamma : ℝ) (m.hyp.cls_pw : ℝ) (m.hyp.obj_pw : ℝ)
    (m.gr : ℝ) m.hyp.anchor_t m.nc np targets 0 (p.zip m.anchors)
  let lbox := acc.1 * (m.hyp.giou : ℝ) * s
  let lobj := acc.2.1 * (m.hyp.obj : ℝ) * s * (if np = 4 then 1.4 else 1)
  let lcls := acc.2.2 * (m.hyp.cls : ℝ) * s
  let bs : ℕ := ((p.getLast?).map SPred.bs).getD 0
  let loss := lbox + lobj + lcls
  { total := loss * bs, lbox := lbox, lobj := lobj, lcls := lcls, lsum := loss }

/-! ## Helper lemmas: `filterP` / `countWhere` -/

theorem filterP_subset (P : α → Prop) [DecidablePred P] :
    ∀ l : List α, ∀ a ∈ filterP P l, a ∈ l ∧ P a := by
  intro l
  induction l with
  | nil => intro a ha; cases ha
  | cons b t ih =>
    intro a ha
    by_cases hb : P b
    · rw [filterP, if_pos hb] at ha
      rcases List.mem_cons.mp ha with h1 | h1
      · exact ⟨by simp [h1], h1 ▸ hb⟩
      · exact ⟨List.mem_cons_of_mem _ (ih a h1).1, (ih a h1).2⟩
    · rw [filterP, if_neg hb] at ha
      exact ⟨List.mem_cons_of_mem _ (ih a ha).1, (ih a ha).2⟩

theorem mem_filterP (P : α → Prop) [DecidablePred P] :
    ∀ l : List α, ∀ a, a ∈ l → P a → a ∈ filterP P l := by
  intro l
  induction l with
  | nil => intro a ha; cases ha
  | cons b t ih =>
    intro a ha hP
    rcases List.mem_cons.mp ha with h1 | h1
    · subst h1; rw [filterP, if_pos hP]; exact List.mem_cons_self _ _
    · by_cases hb : P b
      · rw [filterP, if_pos hb]; exact List.mem_cons_of_mem _ (ih a h1 hP)
      · rw [filterP, if_neg hb]; exact ih a h1 hP

theorem countWhere_append (P : α → Prop) [DecidablePred P] (l₁ l₂ : List α) :
    countWhere P (l₁ ++ l₂) = countWhere P l₁ + countWhere P l₂ := by
  induction l₁ with
  | nil => simp [countWhere]
  | cons a t ih => simp [countWhere, ih]; ring

theorem countWhere_eq_zero (P : α → Prop) [DecidablePred P] (l : List α)
    (h : ∀ a ∈ l, ¬ P a) : countWhere P l = 0 := by
  induction l with
  | nil => rfl
  | cons a t ih =>
    rw [countWhere, if_neg (h a (List.mem_cons_self a t)),
      ih fun b hb => h b (List.mem_cons_of_mem a hb)]

theorem countWhere_congr (P Q : α → Prop) [DecidablePred P] [DecidablePred Q]
    (h : ∀ a, P a ↔ Q a) (l : List α) : countWhere P l = countWhere Q l := by
  induction l with
  | nil => rfl
  | cons a t ih => rw [countWhere, countWhere, ih, if_congr (h a) rfl rfl]

theorem countWhere_map (P : β → Prop) [DecidablePred P] (f : α → β) (l : List α) :
    countWhere P (l.map f) = countWhere (fun a => P (f a)) l := by
  induction l with
  | nil => rfl
  | cons a t ih => rw [List.map_cons, countWhere, countWhere, ih]

theorem countWhere_filterP (c : α) [DecidableEq α]
    (P : α → Prop) [DecidablePred P] (l : List α) :
    countWhere (fun a => a = c) (filterP P l) =
      if P c then countWhere (fun a => a = c) l else 0 := by
  induction l with
  | nil => simp [filterP, countWhere]
  | cons a t ih =>
    by_cases hP : P a
    · rw [filterP, if_pos hP, countWhere, ih, countWhere]
      by_cases hac : a = c
      · subst hac; rw [if_pos hP, if_pos hP]
      · by_cases hPc : P c
        · rw [if_pos hPc, if_pos hPc]
        · rw [if_neg hPc, if_neg hac, if_neg hPc]
    · rw [filterP, if_neg hP, ih, countWhere]
      by_cases hPc : P c
      · rw [if_pos hPc, if_pos hPc]
        have hac : ¬ a = c := fun h => hP (h ▸ hPc)
        rw [if_neg hac]
        omega
      · rw [if_neg hPc, if_neg hPc]

theorem countWhere_pos_of_mem (P : α → Prop) [DecidablePred P] (l : List α)
    (a : α) (ha : a ∈ l) (hP : P a) : 1 ≤ countWhere P l := by
  induction l with
  | nil => cases ha
  | cons b t ih =>
    rcases List.mem_cons.mp ha with h1 | h1
    · subst h1; rw [countWhere, if_pos hP]; omega
    · have := ih h1; rw [countWhere]; omega

/-! ## Helper lemmas: `build_targets` provenance -/

theorem mem_scaleCandsAux (gwN ghN : ℕ) (targets : List Tgt) :
    ∀ (anchors : List (ℚ × ℚ)) (ai : ℕ) (c : Cand),
      c ∈ scaleCandsAux gwN ghN targets ai anchors →
      c.tgt ∈ targets ∧ (c.aw, c.ah) ∈ anchors ∧
        c.gx = c.tgt.x * gwN ∧ c.gy = c.tgt.y * ghN ∧
        c.gw = c.tgt.w * gwN ∧ c.gh = c.tgt.h * ghN := by
  intro anchors
  induction anchors with
  | nil => intro ai c hc; cases hc
  | cons a rest ih =>
    intro ai c hc
    rw [scaleCandsAux] at hc
    rcases List.mem_append.mp hc with h1 | h1
    · rcases List.mem_map.mp h1 with ⟨t, ht, rfl⟩
      exact ⟨ht, by simp, rfl, rfl, rfl, rfl⟩
    · obtain ⟨h2, h3, h4⟩ := ih (ai + 1) c h1
      exact ⟨h2, List.mem_cons_of_mem _ h3, h4⟩

theorem mem_scaleCands (gwN ghN : ℕ) (anchors : List (ℚ × ℚ))
    (targets : List Tgt) (c : Cand) (hc : c ∈ scaleCands gwN ghN anchors targets) :
    c.tgt ∈ targets ∧ (c.aw, c.ah) ∈ anchors ∧
      c.gx = c.tgt.x * gwN ∧ c.gy = c.tgt.y * ghN ∧
      c.gw = c.tgt.w * gwN ∧ c.gh = c.tgt.h * ghN :=
  mem_scaleCandsAux gwN ghN targets anchors 0 c hc

theorem mem_survivors (thr : ℚ) (gwN ghN : ℕ) (anchors : List (ℚ × ℚ))
    (targets : List Tgt) (c : Cand) (hc : c ∈ survivors thr gwN ghN anchors targets) :
    c ∈ scaleCands gwN ghN anchors targets ∧ shapeOK thr c :=
  filterP_subset (shapeOK thr) _ c hc

/-- Every emitted row comes from a surviving candidate, with one of the five
axis-aligned offsets. -/
theorem mem_scaleRows (thr : ℚ) (gwN ghN : ℕ) (anchors : List (ℚ × ℚ))
    (targets : List Tgt) (r : ARow) (hr : r ∈ scaleRows thr gwN ghN anchors targets) :
    r.cand ∈ survivors thr gwN ghN anchors targets ∧
      ((r.offx, r.offy) = (0, 0) ∨ (r.offx, r.offy) = (1 / 2, 0) ∨
        (r.offx, r.offy) = (0, 1 / 2) ∨ (r.offx, r.offy) = (-(1 / 2), 0) ∨
        (r.offx, r.offy) = (0, -(1 / 2))) := by
  rw [scaleRows] at hr
  by_cases ht : targets = []
  · rw [if_pos ht] at hr; cases hr
  · rw [if_neg ht] at hr
    rcases List.mem_append.mp hr with hrest | h
    · rcases List.mem_append.mp hrest with hrest | h
      · rcases List.mem_append.mp hrest with hrest | h
        · rcases List.mem_append.mp hrest with h | h
          · rcases List.mem_map.mp h with ⟨c, hc, rfl⟩
            exact ⟨hc, by simp⟩
          · rcases List.mem_map.mp h with ⟨c, hc, rfl⟩
            exact ⟨(filterP_subset _ _ c hc).1, by simp⟩
        · rcases List.mem_map.mp h with ⟨c, hc, rfl⟩
          exact ⟨(filterP_subset _ _ c hc).1, by simp⟩
      · rcases List.mem_map.mp h with ⟨c, hc, rfl⟩
        exact ⟨(filterP_subset _ _ c hc).1, by simp⟩
    · rcases List.mem_map.mp h with ⟨c, hc, rfl⟩
      exact ⟨(filterP_subset _ _ c hc).1, by simp⟩

theorem scaleCandsAux_nil (gwN ghN : ℕ) :
    ∀ (anchors : List (ℚ × ℚ)) (ai : ℕ), scaleCandsAux gwN ghN [] ai anchors = [] := by
  intro anchors
  induction anchors with
  | nil => intro ai; rfl
  | cons a rest ih => intro ai; rw [scaleCandsAux, List.map_nil, List.nil_append, ih]

theorem targets_ne_nil_of_mem_survivors (thr : ℚ) (gwN ghN : ℕ)
    (anchors : List (ℚ × ℚ)) (targets : List Tgt) (c : Cand)
    (hc : c ∈ survivors thr gwN ghN anchors targets) : targets ≠ [] := by
  intro h
  subst h
  rw [survivors, scaleCands, scaleCandsAux_nil] at hc
  cases hc

/-- The exact number of assignments a uniquely-occurring surviving candidate
receives: the origin cell plus one per satisfied neighbor flag. -/
theorem assignCount_eq (thr : ℚ) (gwN ghN : ℕ) (anchors : List (ℚ × ℚ))
    (targets : List Tgt) (c : Cand)
    (hc : c ∈ survivors thr gwN ghN anchors targets)
    (h1 : countWhere (fun c' => c' = c) (survivors thr gwN ghN anchors targets) = 1) :
    assignCount thr gwN ghN anchors targets c =
      1 + (if flagJ c then 1 else 0) + (if flagK c then 1 else 0) +
        (if flagL gwN c then 1 else 0) + (if flagM ghN c then 1 else 0) := by
  have ht := targets_ne_nil_of_mem_survivors thr gwN ghN anchors targets c hc
  rw [assignCount, scaleRows, if_neg ht]
  rw [countWhere_append, countWhere_append, countWhere_append, countWhere_append]
  rw [countWhere_map, countWhere_map, countWhere_map, countWhere_map, countWhere_map]
  have e0 : countWhere
      (fun a => (⟨a, 0, 0⟩ : ARow).cand = c) (survivors thr gwN ghN anchors targets) = 1 := by
    rw [countWhere_congr _ (fun a => a = c) (fun a => Iff.rfl)]
    exact h1
  have eseg : ∀ (P : Cand → Prop), ∀ inst : DecidablePred P, ∀ (ox oy : ℚ),
      countWhere (fun a => (⟨a, ox, oy⟩ : ARow).cand = c)
        (filterP P (survivors thr gwN ghN anchors targets)) =
      if P c then 1 else 0 := by
    intro P inst ox oy
    rw [countWhere_congr _ (fun a => a = c) (fun a => Iff.rfl),
      countWhere_filterP, h1]
  rw [e0, eseg flagJ _ _ _, eseg flagK _ _ _, eseg (flagL gwN) _ _ _, eseg (flagM ghN) _ _ _]

/-! ## Claim C1 -/

/-- C1: every assignment `build_targets` emits satisfies the anchor shape-ratio
invariant `max(r, 1/r) < anchor_t` in both dimensions, and a ground-truth whose
ratio to every anchor of a scale violates the threshold receives zero
assignments at that scale. -/
theorem build_targets_shape_ratio_invariant (thr : ℚ) (gwN ghN : ℕ)
    (anchors : List (ℚ × ℚ)) (targets : List Tgt) :
    (∀ r ∈ scaleRows thr gwN ghN anchors targets,
        max (r.cand.gw / r.cand.aw) (r.cand.aw / r.cand.gw) < thr ∧
          max (r.cand.gh / r.cand.ah) (r.cand.ah / r.cand.gh) < thr) ∧
      (∀ g ∈ targets,
        (∀ a ∈ anchors, ¬ ratioMax (g.w * gwN) (g.h * ghN) a.1 a.2 < thr) →
        countWhere (fun r : ARow => r.cand.tgt = g)
          (scaleRows thr gwN ghN anchors targets) = 0) := by
  constructor
  · intro r hr
    have hs := (mem_scaleRows thr gwN ghN anchors targets r hr).1
    have hok := (mem_survivors thr gwN ghN anchors targets r.cand hs).2
    rw [shapeOK, ratioMax] at hok
    exact ⟨(max_lt_iff.mp hok).1, (max_lt_iff.mp hok).2⟩
  · intro g hg hviol
    apply countWhere_eq_zero
    intro r hr heq
    have hs := (mem_scaleRows thr gwN ghN anchors targets r hr).1
    have hmem := mem_survivors thr gwN ghN anchors targets r.cand hs
    have hprov := mem_scaleCands gwN ghN anchors targets r.cand hmem.1
    have hok := hmem.2
    rw [shapeOK] at hok
    rw [hprov.2.2.2.2.1, hprov.2.2.2.2.2, heq] at hok
    exact hviol (r.cand.aw, r.cand.ah) hprov.2.1 hok

/-- C1 witness: a 1×1 anchor against a ground-truth spanning the whole image
(8× its width at an 8×8 grid) gets zero assignments. -/
theorem build_targets_shape_ratio_invariant_witness :
    countWhere (fun r : ARow => r.cand.tgt = ⟨0, 0, 1/2, 1/2, 1, 1⟩)
      (scaleRows 4 8 8 [(1, 1)] [⟨0, 0, 1/2, 1/2, 1, 1⟩]) = 0 :=
  (build_targets_shape_ratio_invariant 4 8 8 [(1, 1)] [⟨0, 0, 1/2, 1/2, 1, 1⟩]).2
    ⟨0, 0, 1/2, 1/2, 1, 1⟩ (List.mem_singleton.mpr rfl)
    (by intro a ha; rw [List.mem_singleton.mp ha]; norm_num [ratioMax])

/-! ## Claim C2 -/

/-- C2 counterexample: a ground-truth centered exactly on a cell corner
(fractional part 0 in both axes, away from the edges) produces 5 assignments
for its single surviving candidate — more than the claimed maximum of 3. -/
theorem neighbor_expansion_five_assignments_cex :
    (survivors 4 8 8 [(1, 1)] [⟨0, 0, 1/4, 1/4, 1/8, 1/8⟩]).length = 1 ∧
      assignCount 4 8 8 [(1, 1)] [⟨0, 0, 1/4, 1/4, 1/8, 1/8⟩]
        ⟨⟨0, 0, 1/4, 1/4, 1/8, 1/8⟩, 0, 1, 1, 2, 2, 1, 1⟩ = 5 := by
  constructor
  · norm_num [survivors, scaleCands, scaleCandsAux, filterP, shapeOK, ratioMax]
  · norm_num [assignCount, scaleRows, survivors, scaleCands, scaleCandsAux,
      filterP, shapeOK, ratioMax, flagJ, flagK, flagL, flagM, Int.fract,
      countWhere]

/-- C2 (amended): each uniquely-occurring surviving candidate receives between
1 and 5 assignments (up to 3 unless a fractional part is exactly 0, in which
case both opposite neighbors of that axis qualify); the origin cell is always
included; offsets are never diagonal; fractional part (1/2, 1/2) gives exactly
1 assignment; fractional part (1/5, 1/5) away from the low edges gives exactly
3. -/
theorem neighbor_expansion_assignment_counts (thr : ℚ) (gwN ghN : ℕ)
    (anchors : List (ℚ × ℚ)) (targets : List Tgt) (c : Cand)
    (hc : c ∈ survivors thr gwN ghN anchors targets)
    (h1 : countWhere (fun c' => c' = c) (survivors thr gwN ghN anchors targets) = 1) :
    (1 ≤ assignCount thr gwN ghN anchors targets c ∧
        assignCount thr gwN ghN anchors targets c ≤ 5 ∧
        (Int.fract c.gx ≠ 0 → Int.fract c.gy ≠ 0 →
          assignCount thr gwN ghN anchors targets c ≤ 3)) ∧
      (⟨c, 0, 0⟩ : ARow) ∈ scaleRows thr gwN ghN anchors targets ∧
      (∀ r ∈ scaleRows thr gwN ghN anchors targets, r.offx = 0 ∨ r.offy = 0) ∧
      (Int.fract c.gx = 1/2 → Int.fract c.gy = 1/2 →
        assignCount thr gwN ghN anchors targets c = 1) ∧
      (Int.fract c.gx = 1/5 → Int.fract c.gy = 1/5 → 1 < c.gx → 1 < c.gy →
        assignCount thr gwN ghN anchors targets c = 3) := by
  have hcount := assignCount_eq thr gwN ghN anchors targets c hc h1
  have ht := targets_ne_nil_of_mem_survivors thr gwN ghN anchors targets c hc
  have hfracL : (gwN : ℚ) - c.gx = ((gwN : ℤ) : ℚ) + (- c.gx) := by push_cast; ring
  have hfracM : (ghN : ℚ) - c.gy = ((ghN : ℤ) : ℚ) + (- c.gy) := by push_cast; ring
  refine ⟨⟨?_, ?_, ?_⟩, ?_, ?_, ?_, ?_⟩
  · rw [hcount]; omega
  · rw [hcount]
    have j1 : (if flagJ c then 1 else 0) ≤ 1 := by split <;> omega
    have j2 : (if flagK c then 1 else 0) ≤ 1 := by split <;> omega
    have j3 : (if flagL gwN c then 1 else 0) ≤ 1 := by split <;> omega
    have j4 : (if flagM ghN c then 1 else 0) ≤ 1 := by split <;> omega
    omega
  · intro hfx hfy
    have hJL : ¬ (flagJ c ∧ flagL gwN c) := by
      rintro ⟨hJ, hL⟩
      have hj1 := hJ.1
      have hl1 := hL.1
      rw [hfracL, Int.fract_int_add, Int.fract_neg hfx] at hl1
      linarith
    have hKM : ¬ (flagK c ∧ flagM ghN c) := by
      rintro ⟨hK, hM⟩
      have hk1 := hK.1
      have hm1 := hM.1
      rw [hfracM, Int.fract_int_add, Int.fract_neg hfy] at hm1
      linarith
    have e1 : (if flagJ c then 1 else 0) + (if flagL gwN c then 1 else 0) ≤ 1 := by
      by_cases hJ : flagJ c
      · by_cases hL : flagL gwN c
        · exact absurd ⟨hJ, hL⟩ hJL
        · rw [if_pos hJ, if_neg hL]
      · rw [if_neg hJ]
        split <;> omega
    have e2 : (if flagK c then 1 else 0) + (if flagM ghN c then 1 else 0) ≤ 1 := by
      by_cases hK : flagK c
      · by_cases hM : flagM ghN c
        · exact absurd ⟨hK, hM⟩ hKM
        · rw [if_pos hK, if_neg hM]
      · rw [if_neg hK]
        split <;> omega
    rw [hcount]
    omega
  · rw [scaleRows, if_neg ht]
    exact List.mem_append.mpr (.inl (List.mem_append.mpr (.inl (List.mem_append.mpr
      (.inl (List.mem_append.mpr (.inl (List.mem_map.mpr ⟨c, hc, rfl⟩))))))))
  · intro r hr
    rcases (mem_scaleRows thr gwN ghN anchors targets r hr).2 with h | h | h | h | h <;>
      · rw [Prod.mk.injEq] at h
        first
          | exact Or.inl h.1
          | exact Or.inr h.2
  · intro hx hy
    have hJ : ¬ flagJ c := fun h => absurd h.1 (by rw [hx]; norm_num)
    have hK : ¬ flagK c := fun h => absurd h.1 (by rw [hy]; norm_num)
    have hL : ¬ flagL gwN c := by
      intro h
      have := h.1
      rw [flagL] at h
      rw [hfracL, Int.fract_int_add, Int.fract_neg (by rw [hx]; norm_num), hx] at this
      norm_num at this
    have hM : ¬ flagM ghN c := by
      intro h
      have := h.1
      rw [hfracM, Int.fract_int_add, Int.fract_neg (by rw [hy]; norm_num), hy] at this
      norm_num at this
    rw [hcount, if_neg hJ, if_neg hK, if_neg hL, if_neg hM]
  · intro hx hy hgx hgy
    have hJ : flagJ c := ⟨by rw [hx]; norm_num, hgx⟩
    have hK : flagK c := ⟨by rw [hy]; norm_num, hgy⟩
    have hL : ¬ flagL gwN c := by
      intro h
      have := h.1
      rw [hfracL, Int.fract_int_add, Int.fract_neg (by rw [hx]; norm_num), hx] at this
      norm_num at this
    have hM : ¬ flagM ghN c := by
      intro h
      have := h.1
      rw [hfracM, Int.fract_int_add, Int.fract_neg (by rw [hy]; norm_num), hy] at this
      norm_num at this
    rw [hcount, if_pos hJ, if_pos hK, if_neg hL, if_neg hM]

/-- C2 witness: the (1/5, 1/5)-fraction case at a concrete scale produces
exactly 3 assignments. -/
theorem neighbor_expansion_assignment_counts_witness :
    assignCount 4 8 8 [(1, 1)] [⟨0, 0, 11/40, 11/40, 1/8, 1/8⟩]
      ⟨⟨0, 0, 11/40, 11/40, 1/8, 1/8⟩, 0, 1, 1, 11/5, 11/5, 1, 1⟩ = 3 :=
  (neighbor_expansion_assignment_counts 4 8 8 [(1, 1)]
      [⟨0, 0, 11/40, 11/40, 1/8, 1/8⟩] ⟨⟨0, 0, 11/40, 11/40, 1/8, 1/8⟩, 0, 1, 1, 11/5, 11/5, 1, 1⟩
      (by norm_num [survivors, scaleCands, scaleCandsAux, filterP, shapeOK, ratioMax])
      (by norm_num [survivors, scaleCands, scaleCandsAux, filterP, shapeOK, ratioMax,
        countWhere])).2.2.2.2
    (by norm_num [Int.fract]) (by norm_num [Int.fract]) (by norm_num) (by norm_num)

/-! ## Claim C9 -/

/-- C9: with an empty ground-truth tensor, `build_targets` returns, for every
scale, well-formed outputs with zero assignments (all five per-scale lists
empty). -/
theorem build_targets_empty_targets (scales : List (ℕ × ℕ × List (ℚ × ℚ)))
    (thr : ℚ) :
    ∀ o ∈ build_targets scales thr [],
      o.tcls = [] ∧ o.tbox = [] ∧ o.indices = [] ∧ o.anch = [] ∧ o.ttar = [] := by
  intro o ho
  rcases List.mem_map.mp ho with ⟨s, hs, rfl⟩
  refine ⟨?_, ?_, ?_, ?_, ?_⟩ <;> simp [buildScale, scaleRows]

/-- C9 witness: one concrete scale, empty targets. -/
theorem build_targets_empty_targets_witness :
    (buildScale 4 8 8 [(1, 1)] []).tcls = [] ∧
      (buildScale 4 8 8 [(1, 1)] []).tbox = [] ∧
      (buildScale 4 8 8 [(1, 1)] []).indices = [] ∧
      (buildScale 4 8 8 [(1, 1)] []).anch = [] ∧
      (buildScale 4 8 8 [(1, 1)] []).ttar = [] :=
  build_targets_empty_targets [(8, 8, [(1, 1)])] 4 (buildScale 4 8 8 [(1, 1)] [])
    (by simp [build_targets])

/-! ## Claim C3 -/

theorem xywh_row_roundtrip (p : ℚ × ℚ × ℚ × ℚ) :
    xywh2xyxy_row (xyxy2xywh_row p) = p := by
  rcases p with ⟨x1, y1, x2, y2⟩
  simp only [xyxy2xywh_row, xywh2xyxy_row, Prod.mk.injEq]
  refine ⟨by ring, by ring, by ring, by ring⟩

/-- C3: `xywh2xyxy (xyxy2xywh b) = b` for every n×4 box tensor `b` — the two
conversions are exact inverses (exact in the rational model of floats). -/
theorem xyxy_xywh_roundtrip (l : List (ℚ × ℚ × ℚ × ℚ)) :
    xywh2xyxy (xyxy2xywh l) = l := by
  rw [xywh2xyxy, xyxy2xywh, List.map_map]
  induction l with
  | nil => rfl
  | cons p t ih =>
    rw [List.map_cons, Function.comp_apply, xywh_row_roundtrip, ih]

/-- C3 witness: round trip of a concrete box tensor. -/
theorem xyxy_xywh_roundtrip_witness :
    xywh2xyxy (xyxy2xywh [(1, 2, 3, 4), (0, 0, 5, 7)]) = [(1, 2, 3, 4), (0, 0, 5, 7)] :=
  xyxy_xywh_roundtrip [(1, 2, 3, 4), (0, 0, 5, 7)]

/-! ## Claim C6 -/

theorem chain_accumMaxAux : ∀ (t : List ℚ) (m : ℚ),
    List.Chain (· ≤ ·) m (accumMaxAux m t) := by
  intro t
  induction t with
  | nil => intro m; exact List.Chain.nil
  | cons a t ih =>
    intro m
    rw [accumMaxAux]
    exact List.Chain.cons (le_max_left m a) (ih (max m a))

theorem chain'_accumMax (l : List ℚ) : List.Chain' (· ≤ ·) (accumMax l) := by
  cases l with
  | nil => exact trivial
  | cons a t => exact chain_accumMaxAux t a

set_option maxRecDepth 100000 in
/-- Shared evaluation: the AP of a perfect one-point detector is exactly
`0.995`; the 101st sample (recall 1) takes the appended terminal precision 0. -/
theorem compute_ap_perfect_eval : compute_ap [1] [1] = 199/200 := by
  norm_num [compute_ap, precEnvelope, accumMax, accumMaxAux, apGrid, natsBelow,
    interp, interpAux, trapz]

/-- C6 counterexample: for the perfect detector (precision 1 at all recall
levels, recall reaching 1) the returned AP misses 1.0 by far more than the
claimed 1e-6 tolerance. -/
theorem compute_ap_perfect_detector_cex :
    ¬ (|compute_ap [1] [1] - 1| ≤ 1 / 1000000) := by
  rw [compute_ap_perfect_eval,
    show (199 : ℚ)/200 - 1 = -(1/200) by norm_num, abs_neg,
    abs_of_pos (by norm_num : (0 : ℚ) < 1/200)]
  norm_num

/-- C6 (amended): `compute_ap` first applies a monotone precision envelope
(the processed precision is non-increasing along the curve) and integrates by
101-point linear interpolation; for a perfect detector it returns exactly
0.995 — the appended terminal precision sentinel 0 makes the sample at recall
1 equal 0, costing 0.005 — not 1.0 ± 1e-6. -/
theorem compute_ap_envelope_and_perfect_value :
    (∀ mpre : List ℚ, List.Chain' (fun a b => b ≤ a) (precEnvelope mpre)) ∧
      compute_ap [1] [1] = 199/200 := by
  constructor
  · intro mpre
    rw [precEnvelope]
    exact List.chain'_reverse.mpr (chain'_accumMax mpre.reverse)
  · exact compute_ap_perfect_eval

/-- C6 witness: the envelope of a concrete padded precision curve is
non-increasing. -/
theorem compute_ap_envelope_and_perfect_value_witness :
    List.Chain' (fun a b => b ≤ a) (precEnvelope [0, 1, 1/2, 0]) :=
  compute_ap_envelope_and_perfect_value.1 [0, 1, 1/2, 0]

/-! ## Helper lemmas: real-valued IoU bounds -/

theorem epsR_pos : 0 < epsR := by rw [epsR]; norm_num

theorem bboxInter_nonneg (c1 c2 : ℝ × ℝ × ℝ × ℝ) : 0 ≤ bboxInter c1 c2 := by
  rcases c1 with ⟨ax1, ay1, ax2, ay2⟩
  rcases c2 with ⟨bx1, by1, bx2, by2⟩
  exact mul_nonneg (le_max_right _ 0) (le_max_right _ 0)

theorem bboxInter_comm (c1 c2 : ℝ × ℝ × ℝ × ℝ) : bboxInter c1 c2 = bboxInter c2 c1 := by
  rcases c1 with ⟨ax1, ay1, ax2, ay2⟩
  rcases c2 with ⟨bx1, by1, bx2, by2⟩
  simp only [bboxInter, min_comm, max_comm]

theorem bboxInter_le_left (ax1 ay1 ax2 ay2 bx1 by1 bx2 by2 : ℝ)
    (hx : ax1 ≤ ax2) (hy : ay1 ≤ ay2) :
    bboxInter (ax1, ay1, ax2, ay2) (bx1, by1, bx2, by2) ≤ (ax2 - ax1) * (ay2 - ay1) := by
  simp only [bboxInter]
  apply mul_le_mul
  · apply max_le
    · have h1 : min ax2 bx2 ≤ ax2 := min_le_left _ _
      have h2 : ax1 ≤ max ax1 bx1 := le_max_left _ _
      linarith
    · linarith
  · apply max_le
    · have h1 : min ay2 by2 ≤ ay2 := min_le_left _ _
      have h2 : ay1 ≤ max ay1 by1 := le_max_left _ _
      linarith
    · linarith
  · exact le_max_right _ 0
  · linarith

theorem bboxInter_le_right (ax1 ay1 ax2 ay2 bx1 by1 bx2 by2 : ℝ)
    (hx : bx1 ≤ bx2) (hy : by1 ≤ by2) :
    bboxInter (ax1, ay1, ax2, ay2) (bx1, by1, bx2, by2) ≤ (bx2 - bx1) * (by2 - by1) := by
  rw [bboxInter_comm]
  exact bboxInter_le_left bx1 by1 bx2 by2 ax1 ay1 ax2 ay2 hx hy

theorem bboxUnion_pos (ax1 ay1 ax2 ay2 bx1 by1 bx2 by2 : ℝ)
    (hax : ax1 ≤ ax2) (hay : ay1 ≤ ay2) (hbx : bx1 ≤ bx2) (hby : by1 ≤ by2) :
    0 < bboxUnion (ax1, ay1, ax2, ay2) (bx1, by1, bx2, by2) := by
  have h1 : 0 ≤ (ax2 - ax1) * (ay2 - ay1) := mul_nonneg (by linarith) (by linarith)
  have h2 := bboxInter_le_right ax1 ay1 ax2 ay2 bx1 by1 bx2 by2 hbx hby
  have h3 := epsR_pos
  simp only [bboxUnion]
  linarith

theorem bboxUnion_sub_inter (ax1 ay1 ax2 ay2 bx1 by1 bx2 by2 : ℝ)
    (hax : ax1 ≤ ax2) (hay : ay1 ≤ ay2) (hbx : bx1 ≤ bx2) (hby : by1 ≤ by2) :
    bboxInter (ax1, ay1, ax2, ay2) (bx1, by1, bx2, by2) + epsR ≤
      bboxUnion (ax1, ay1, ax2, ay2) (bx1, by1, bx2, by2) := by
  have h1 := bboxInter_le_left ax1 ay1 ax2 ay2 bx1 by1 bx2 by2 hax hay
  have h2 := bboxInter_le_right ax1 ay1 ax2 ay2 bx1 by1 bx2 by2 hbx hby
  simp only [bboxUnion]
  linarith

theorem bboxIoUPlain_nonneg (ax1 ay1 ax2 ay2 bx1 by1 bx2 by2 : ℝ)
    (hax : ax1 ≤ ax2) (hay : ay1 ≤ ay2) (hbx : bx1 ≤ bx2) (hby : by1 ≤ by2) :
    0 ≤ bboxIoUPlain (ax1, ay1, ax2, ay2) (bx1, by1, bx2, by2) :=
  div_nonneg (bboxInter_nonneg _ _)
    (le_of_lt (bboxUnion_pos ax1 ay1 ax2 ay2 bx1 by1 bx2 by2 hax hay hbx hby))

theorem bboxIoUPlain_lt_one (ax1 ay1 ax2 ay2 bx1 by1 bx2 by2 : ℝ)
    (hax : ax1 ≤ ax2) (hay : ay1 ≤ ay2) (hbx : bx1 ≤ bx2) (hby : by1 ≤ by2) :
    bboxIoUPlain (ax1, ay1, ax2, ay2) (bx1, by1, bx2, by2) < 1 := by
  rw [bboxIoUPlain, div_lt_one (bboxUnion_pos ax1 ay1 ax2 ay2 bx1 by1 bx2 by2 hax hay hbx hby)]
  have := bboxUnion_sub_inter ax1 ay1 ax2 ay2 bx1 by1 bx2 by2 hax hay hbx hby
  have := epsR_pos
  linarith

theorem bboxIoUPlain_le_one (ax1 ay1 ax2 ay2 bx1 by1 bx2 by2 : ℝ)
    (hax : ax1 ≤ ax2) (hay : ay1 ≤ ay2) (hbx : bx1 ≤ bx2) (hby : by1 ≤ by2) :
    bboxIoUPlain (ax1, ay1, ax2, ay2) (bx1, by1, bx2, by2) ≤ 1 :=
  le_of_lt (bboxIoUPlain_lt_one ax1 ay1 ax2 ay2 bx1 by1 bx2 by2 hax hay hbx hby)

theorem bboxCW_nonneg (ax1 ay1 ax2 ay2 bx1 by1 bx2 by2 : ℝ)
    (hax : ax1 ≤ ax2) :
    0 ≤ bboxCW (ax1, ay1, ax2, ay2) (bx1, by1, bx2, by2) := by
  simp only [bboxCW]
  have h1 : ax2 ≤ max ax2 bx2 := le_max_left _ _
  have h2 : min ax1 bx1 ≤ ax1 := min_le_left _ _
  linarith

theorem bboxCH_nonneg (ax1 ay1 ax2 ay2 bx1 by1 bx2 by2 : ℝ)
    (hay : ay1 ≤ ay2) :
    0 ≤ bboxCH (ax1, ay1, ax2, ay2) (bx1, by1, bx2, by2) := by
  simp only [bboxCH]
  have h1 : ay2 ≤ max ay2 by2 := le_max_left _ _
  have h2 : min ay1 by1 ≤ ay1 := min_le_left _ _
  linarith

theorem bboxCArea_pos (ax1 ay1 ax2 ay2 bx1 by1 bx2 by2 : ℝ)
    (hax : ax1 ≤ ax2) (hay : ay1 ≤ ay2) :
    0 < bboxCArea (ax1, ay1, ax2, ay2) (bx1, by1, bx2, by2) := by
  rw [bboxCArea]
  have h1 := bboxCW_nonneg ax1 ay1 ax2 ay2 bx1 by1 bx2 by2 hax
  have h2 := bboxCH_nonneg ax1 ay1 ax2 ay2 bx1 by1 bx2 by2 hay
  have := epsR_pos
  nlinarith

theorem bboxC2_pos (c1 c2 : ℝ × ℝ × ℝ × ℝ) : 0 < bboxC2 c1 c2 := by
  rw [bboxC2]
  have := epsR_pos
  nlinarith [sq_nonneg (bboxCW c1 c2), sq_nonneg (bboxCH c1 c2)]

theorem bboxRho2_nonneg (c1 c2 : ℝ × ℝ × ℝ × ℝ) : 0 ≤ bboxRho2 c1 c2 := by
  rcases c1 with ⟨ax1, ay1, ax2, ay2⟩
  rcases c2 with ⟨bx1, by1, bx2, by2⟩
  simp only [bboxRho2]
  positivity

theorem bboxV_nonneg (c1 c2 : ℝ × ℝ × ℝ × ℝ) : 0 ≤ bboxV c1 c2 := by
  rcases c1 with ⟨ax1, ay1, ax2, ay2⟩
  rcases c2 with ⟨bx1, by1, bx2, by2⟩
  simp only [bboxV]
  positivity

theorem bboxAlphaDenom_pos (ax1 ay1 ax2 ay2 bx1 by1 bx2 by2 : ℝ)
    (hax : ax1 ≤ ax2) (hay : ay1 ≤ ay2) (hbx : bx1 ≤ bx2) (hby : by1 ≤ by2) :
    0 < bboxAlphaDenom (ax1, ay1, ax2, ay2) (bx1, by1, bx2, by2) := by
  rw [bboxAlphaDenom]
  have h1 := bboxIoUPlain_le_one ax1 ay1 ax2 ay2 bx1 by1 bx2 by2 hax hay hbx hby
  have h2 := bboxV_nonneg (ax1, ay1, ax2, ay2) (bx1, by1, bx2, by2)
  have := epsR_pos
  linarith

/-- The xywh corners of `bbox_iou(x1y1x2y2=False)` are always well-formed when
the widths/heights are nonnegative; CIoU is then at most the plain IoU, hence
at most 1. -/
theorem ciou_le_one (x1 y1 w1 h1 x2 y2 w2 h2 : ℝ)
    (hw1 : 0 ≤ w1) (hh1 : 0 ≤ h1) (hw2 : 0 ≤ w2) (hh2 : 0 ≤ h2) :
    bbox_iou (x1, y1, w1, h1) (x2, y2, w2, h2) false false false true ≤ 1 := by
  rw [bbox_iou]
  simp only [bboxCorners, Bool.false_eq_true, if_false, Bool.or_self, Bool.false_or,
    if_true, Bool.or_true]
  have hax : x1 - w1 / 2 ≤ x1 + w1 / 2 := by linarith
  have hay : y1 - h1 / 2 ≤ y1 + h1 / 2 := by linarith
  have hbx : x2 - w2 / 2 ≤ x2 + w2 / 2 := by linarith
  have hby : y2 - h2 / 2 ≤ y2 + h2 / 2 := by linarith
  set p : ℝ × ℝ × ℝ × ℝ := (x1 - w1 / 2, y1 - h1 / 2, x1 + w1 / 2, y1 + h1 / 2) with hp
  set q : ℝ × ℝ × ℝ × ℝ := (x2 - w2 / 2, y2 - h2 / 2, x2 + w2 / 2, y2 + h2 / 2) with hq
  have hiou : bboxIoUPlain p q ≤ 1 := by
    rw [hp, hq]; exact bboxIoUPlain_le_one _ _ _ _ _ _ _ _ hax hay hbx hby
  have hrho : 0 ≤ bboxRho2 p q / bboxC2 p q :=
    div_nonneg (bboxRho2_nonneg p q) (le_of_lt (bboxC2_pos p q))
  have hv : 0 ≤ bboxV p q := bboxV_nonneg p q
  have hd : 0 < bboxAlphaDenom p q := by
    rw [hp, hq]; exact bboxAlphaDenom_pos _ _ _ _ _ _ _ _ hax hay hbx hby
  have hva : 0 ≤ bboxV p q * (bboxV p q / bboxAlphaDenom p q) :=
    mul_nonneg hv (div_nonneg hv hd.le)
  linarith

/-! ## Claim C4 -/

/-- C4 counterexample: `box_iou` and `wh_iou` carry no epsilon — on zero-area
inputs their division denominators are exactly 0. -/
theorem iou_epsilon_missing_cex :
    box_iou_denom (0, 0, 0, 0) (0, 0, 0, 0) = 0 ∧ wh_iou_denom (0, 0) (0, 0) = 0 := by
  constructor
  · norm_num [box_iou_denom, box_area, box_inter]
  · norm_num [wh_iou_denom, wh_inter]

/-- C4 (amended): only `bbox_iou` adds the 1e-16 epsilon to its denominators —
all four of them (union, convex area, convex diagonal, CIoU alpha) are strictly
positive for well-formed boxes; `box_iou` and `wh_iou` perform their single
division without an epsilon, and on zero-area boxes that denominator is zero. -/
theorem iou_denominator_epsilon_status :
    (∀ ax1 ay1 ax2 ay2 bx1 by1 bx2 by2 : ℝ,
        ax1 ≤ ax2 → ay1 ≤ ay2 → bx1 ≤ bx2 → by1 ≤ by2 →
        0 < bboxUnion (ax1, ay1, ax2, ay2) (bx1, by1, bx2, by2) ∧
          0 < bboxCArea (ax1, ay1, ax2, ay2) (bx1, by1, bx2, by2) ∧
          0 < bboxC2 (ax1, ay1, ax2, ay2) (bx1, by1, bx2, by2) ∧
          0 < bboxAlphaDenom (ax1, ay1, ax2, ay2) (bx1, by1, bx2, by2)) ∧
      box_iou_denom (0, 0, 0, 0) (0, 0, 0, 0) = 0 ∧
      wh_iou_denom (0, 0) (0, 0) = 0 := by
  refine ⟨?_, ?_, ?_⟩
  · intro ax1 ay1 ax2 ay2 bx1 by1 bx2 by2 hax hay hbx hby
    exact ⟨bboxUnion_pos ax1 ay1 ax2 ay2 bx1 by1 bx2 by2 hax hay hbx hby,
      bboxCArea_pos ax1 ay1 ax2 ay2 bx1 by1 bx2 by2 hax hay,
      bboxC2_pos _ _,
      bboxAlphaDenom_pos ax1 ay1 ax2 ay2 bx1 by1 bx2 by2 hax hay hbx hby⟩
  · norm_num [box_iou_denom, box_area, box_inter]
  · norm_num [wh_iou_denom, wh_inter]

/-- C4 witness: the `bbox_iou` denominators are positive at a concrete
well-formed pair of boxes. -/
theorem iou_denominator_epsilon_status_witness :
    0 < bboxUnion ((0 : ℝ), 0, 1, 1) (0, 0, 2, 2) ∧
      0 < bboxCArea ((0 : ℝ), 0, 1, 1) (0, 0, 2, 2) ∧
      0 < bboxC2 ((0 : ℝ), 0, 1, 1) (0, 0, 2, 2) ∧
      0 < bboxAlphaDenom ((0 : ℝ), 0, 1, 1) (0, 0, 2, 2) :=
  iou_denominator_epsilon_status.1 0 0 1 1 0 0 2 2 (by norm_num) (by norm_num)
    (by norm_num) (by norm_num)

/-! ## Claim C5 -/

theorem qbox_inter_nonneg (b1 b2 : ℚ × ℚ × ℚ × ℚ) : 0 ≤ box_inter b1 b2 := by
  rcases b1 with ⟨ax1, ay1, ax2, ay2⟩
  rcases b2 with ⟨bx1, by1, bx2, by2⟩
  exact mul_nonneg (le_max_right _ 0) (le_max_right _ 0)

theorem qbox_inter_le_left (ax1 ay1 ax2 ay2 bx1 by1 bx2 by2 : ℚ)
    (hx : ax1 ≤ ax2) (hy : ay1 ≤ ay2) :
    box_inter (ax1, ay1, ax2, ay2) (bx1, by1, bx2, by2) ≤ (ax2 - ax1) * (ay2 - ay1) := by
  simp only [box_inter]
  apply mul_le_mul
  · apply max_le
    · have h1 : min ax2 bx2 ≤ ax2 := min_le_left _ _
      have h2 : ax1 ≤ max ax1 bx1 := le_max_left _ _
      linarith
    · linarith
  · apply max_le
    · have h1 : min ay2 by2 ≤ ay2 := min_le_left _ _
      have h2 : ay1 ≤ max ay1 by1 := le_max_left _ _
      linarith
    · linarith
  · exact le_max_right _ 0
  · linarith

theorem qbox_inter_comm (b1 b2 : ℚ × ℚ × ℚ × ℚ) : box_inter b1 b2 = box_inter b2 b1 := by
  rcases b1 with ⟨ax1, ay1, ax2, ay2⟩
  rcases b2 with ⟨bx1, by1, bx2, by2⟩
  simp only [box_inter, min_comm, max_comm]

theorem qbox_inter_le_right (ax1 ay1 ax2 ay2 bx1 by1 bx2 by2 : ℚ)
    (hx : bx1 ≤ bx2) (hy : by1 ≤ by2) :
    box_inter (ax1, ay1, ax2, ay2) (bx1, by1, bx2, by2) ≤ (bx2 - bx1) * (by2 - by1) := by
  rw [qbox_inter_comm]
  exact qbox_inter_le_left bx1 by1 bx2 by2 ax1 ay1 ax2 ay2 hx hy

theorem qbox_iou_self (ax1 ay1 ax2 ay2 : ℚ) (hx : ax1 < ax2) (hy : ay1 < ay2) :
    box_iou_pair (ax1, ay1, ax2, ay2) (ax1, ay1, ax2, ay2) = 1 := by
  have hinter : box_inter (ax1, ay1, ax2, ay2) (ax1, ay1, ax2, ay2) =
      (ax2 - ax1) * (ay2 - ay1) := by
    simp only [box_inter, min_self, max_self]
    rw [max_eq_left (by linarith : (0 : ℚ) ≤ ax2 - ax1),
      max_eq_left (by linarith : (0 : ℚ) ≤ ay2 - ay1)]
  have harea : (ax2 - ax1) * (ay2 - ay1) ≠ 0 :=
    ne_of_gt (mul_pos (by linarith) (by linarith))
  have hden : box_area ((ax1, ay1, ax2, ay2) : ℚ × ℚ × ℚ × ℚ) =
      (ax2 - ax1) * (ay2 - ay1) := by rw [box_area]
  rw [box_iou_pair, box_iou_denom, hinter, hden]
  have hsimp : (ax2 - ax1) * (ay2 - ay1) + (ax2 - ax1) * (ay2 - ay1) -
      (ax2 - ax1) * (ay2 - ay1) = (ax2 - ax1) * (ay2 - ay1) := by ring
  rw [hsimp]
  exact div_self harea

theorem bbox_iou_plain_eq (b1 b2 : ℝ × ℝ × ℝ × ℝ) :
    bbox_iou b1 b2 true false false false = bboxIoUPlain b1 b2 := by
  rcases b1 with ⟨ax1, ay1, ax2, ay2⟩
  rcases b2 with ⟨bx1, by1, bx2, by2⟩
  simp [bbox_iou, bboxCorners]

/-- C5 counterexample: on two identical tiny well-formed boxes (side 1e-7,
area 1e-14) the plain `bbox_iou` is `1e-14 / (1e-14 + 1e-16) = 100/101 ≈
0.990`, not exactly 1: here the union epsilon is one percent of the area, so
the deviation survives float rounding too (unlike at unit boxes, where
`1.0 + 1e-16` rounds back to `1.0` and the code returns exactly 1). -/
theorem bbox_iou_identical_not_one_cex :
    bbox_iou ((0 : ℝ), 0, 1/10^7, 1/10^7) (0, 0, 1/10^7, 1/10^7)
        true false false false = 100/101 ∧ (100 : ℝ)/101 ≠ 1 := by
  constructor
  · rw [bbox_iou_plain_eq]
    norm_num [bboxIoUPlain, bboxInter, bboxUnion, epsR, min_def, max_def]
  · norm_num

/-- C5 (amended): on identical well-formed boxes the plain `bbox_iou` returns
`A / (A + 1e-16)` rather than exactly 1 — indistinguishable from 1 at float
precision when the area dominates the epsilon, but measurably below 1 for
tiny boxes (area 1e-14 gives 100/101); `box_iou` returns exactly 1 for
identical positive-area boxes; both return 0 on disjoint boxes; the plain
`bbox_iou` of well-formed boxes lies in [0, 1]; and the GIoU/DIoU/CIoU
variants can return negative values. -/
theorem iou_range_and_identity_values :
    ((∀ ax1 ay1 ax2 ay2 : ℝ, ax1 ≤ ax2 → ay1 ≤ ay2 →
        bbox_iou (ax1, ay1, ax2, ay2) (ax1, ay1, ax2, ay2) true false false false =
          (ax2 - ax1) * (ay2 - ay1) / ((ax2 - ax1) * (ay2 - ay1) + epsR)) ∧
      bbox_iou ((0 : ℝ), 0, 1/10^7, 1/10^7) (0, 0, 1/10^7, 1/10^7)
          true false false false = 100/101 ∧ (100 : ℝ)/101 < 1) ∧
      (∀ ax1 ay1 ax2 ay2 : ℚ, ax1 < ax2 → ay1 < ay2 →
          box_iou_pair (ax1, ay1, ax2, ay2) (ax1, ay1, ax2, ay2) = 1) ∧
      (∀ ax1 ay1 ax2 ay2 bx1 by1 bx2 by2 : ℝ, ax2 ≤ bx1 →
          bbox_iou (ax1, ay1, ax2, ay2) (bx1, by1, bx2, by2) true false false false = 0) ∧
      (∀ ax1 ay1 ax2 ay2 bx1 by1 bx2 by2 : ℚ, ax2 ≤ bx1 →
          box_iou_pair (ax1, ay1, ax2, ay2) (bx1, by1, bx2, by2) = 0) ∧
      (∀ ax1 ay1 ax2 ay2 bx1 by1 bx2 by2 : ℝ,
          ax1 ≤ ax2 → ay1 ≤ ay2 → bx1 ≤ bx2 → by1 ≤ by2 →
          0 ≤ bbox_iou (ax1, ay1, ax2, ay2) (bx1, by1, bx2, by2) true false false false ∧
            bbox_iou (ax1, ay1, ax2, ay2) (bx1, by1, bx2, by2) true false false false ≤ 1) ∧
      (∀ ax1 ay1 ax2 ay2 bx1 by1 bx2 by2 : ℚ,
          ax1 ≤ ax2 → ay1 ≤ ay2 → bx1 ≤ bx2 → by1 ≤ by2 →
          0 ≤ box_iou_pair (ax1, ay1, ax2, ay2) (bx1, by1, bx2, by2) ∧
            box_iou_pair (ax1, ay1, ax2, ay2) (bx1, by1, bx2, by2) ≤ 1) ∧
      (bbox_iou ((0 : ℝ), 0, 1, 1) (10, 0, 11, 1) true true false false < 0 ∧
        bbox_iou ((0 : ℝ), 0, 1, 1) (10, 0, 11, 1) true false true false < 0 ∧
        bbox_iou ((0 : ℝ), 0, 1, 1) (10, 0, 11, 1) true false false true < 0) := by
  refine ⟨?_, qbox_iou_self, ?_, ?_, ?_, ?_, ?_, ?_, ?_⟩
  · refine ⟨?_, ?_, ?_⟩
    · intro ax1 ay1 ax2 ay2 hx hy
      rw [bbox_iou_plain_eq]
      have hinter : bboxInter (ax1, ay1, ax2, ay2) (ax1, ay1, ax2, ay2) =
          (ax2 - ax1) * (ay2 - ay1) := by
        simp only [bboxInter, min_self, max_self]
        rw [max_eq_left (by linarith : (0 : ℝ) ≤ ax2 - ax1),
          max_eq_left (by linarith : (0 : ℝ) ≤ ay2 - ay1)]
      have hunion : bboxUnion (ax1, ay1, ax2, ay2) (ax1, ay1, ax2, ay2) =
          (ax2 - ax1) * (ay2 - ay1) + epsR := by
        simp only [bboxUnion, hinter]
        ring
      rw [bboxIoUPlain, hinter, hunion]
    · rw [bbox_iou_plain_eq]
      norm_num [bboxIoUPlain, bboxInter, bboxUnion, epsR, min_def, max_def]
    · norm_num
  · intro ax1 ay1 ax2 ay2 bx1 by1 bx2 by2 h
    rw [bbox_iou_plain_eq, bboxIoUPlain]
    have hinter : bboxInter (ax1, ay1, ax2, ay2) (bx1, by1, bx2, by2) = 0 := by
      simp only [bboxInter]
      have h1 : min ax2 bx2 ≤ ax2 := min_le_left _ _
      have h2 : bx1 ≤ max ax1 bx1 := le_max_right _ _
      rw [max_eq_right (by linarith : min ax2 bx2 - max ax1 bx1 ≤ (0 : ℝ))]
      exact zero_mul _
    rw [hinter, zero_div]
  · intro ax1 ay1 ax2 ay2 bx1 by1 bx2 by2 h
    rw [box_iou_pair]
    have hinter : box_inter (ax1, ay1, ax2, ay2) (bx1, by1, bx2, by2) = 0 := by
      simp only [box_inter]
      have h1 : min ax2 bx2 ≤ ax2 := min_le_left _ _
      have h2 : bx1 ≤ max ax1 bx1 := le_max_right _ _
      rw [max_eq_right (by linarith : min ax2 bx2 - max ax1 bx1 ≤ (0 : ℚ))]
      exact zero_mul _
    rw [hinter, zero_div]
  · intro ax1 ay1 ax2 ay2 bx1 by1 bx2 by2 hax hay hbx hby
    rw [bbox_iou_plain_eq]
    exact ⟨bboxIoUPlain_nonneg ax1 ay1 ax2 ay2 bx1 by1 bx2 by2 hax hay hbx hby,
      bboxIoUPlain_le_one ax1 ay1 ax2 ay2 bx1 by1 bx2 by2 hax hay hbx hby⟩
  · intro ax1 ay1 ax2 ay2 bx1 by1 bx2 by2 hax hay hbx hby
    have hA1 : (0 : ℚ) ≤ box_area (ax1, ay1, ax2, ay2) := by
      rw [box_area]; exact mul_nonneg (by linarith) (by linarith)
    have hA2 : (0 : ℚ) ≤ box_area (bx1, by1, bx2, by2) := by
      rw [box_area]; exact mul_nonneg (by linarith) (by linarith)
    have hint := qbox_inter_nonneg (ax1, ay1, ax2, ay2) (bx1, by1, bx2, by2)
    have hle1 := qbox_inter_le_left ax1 ay1 ax2 ay2 bx1 by1 bx2 by2 hax hay
    have hle2 := qbox_inter_le_right ax1 ay1 ax2 ay2 bx1 by1 bx2 by2 hbx hby
    have harea1 : box_area ((ax1, ay1, ax2, ay2) : ℚ × ℚ × ℚ × ℚ) =
        (ax2 - ax1) * (ay2 - ay1) := by rw [box_area]
    have harea2 : box_area ((bx1, by1, bx2, by2) : ℚ × ℚ × ℚ × ℚ) =
        (bx2 - bx1) * (by2 - by1) := by rw [box_area]
    have hden : (0 : ℚ) ≤ box_iou_denom (ax1, ay1, ax2, ay2) (bx1, by1, bx2, by2) := by
      rw [box_iou_denom, harea1, harea2]
      linarith
    constructor
    · exact div_nonneg hint hden
    · rcases eq_or_lt_of_le hden with hz | hz
      · rw [box_iou_pair, ← hz, div_zero]
        norm_num
      · rw [box_iou_pair, div_le_one hz, box_iou_denom, harea1, harea2]
        linarith
  · norm_num [bbox_iou, bboxCorners, bboxIoUPlain, bboxInter, bboxUnion,
      bboxCArea, bboxCW, bboxCH, epsR, min_def, max_def]
  · norm_num [bbox_iou, bboxCorners, bboxIoUPlain, bboxInter, bboxUnion,
      bboxC2, bboxRho2, bboxCW, bboxCH, epsR, min_def, max_def]
  · norm_num [bbox_iou, bboxCorners, bboxIoUPlain, bboxInter, bboxUnion,
      bboxC2, bboxRho2, bboxV, bboxAlphaDenom, bboxCW, bboxCH, epsR,
      min_def, max_def, sub_self]

/-- C5 witness: the range and disjointness statements at concrete boxes. -/
theorem iou_range_and_identity_values_witness :
    box_iou_pair ((0 : ℚ), 0, 2, 2) (0, 0, 2, 2) = 1 ∧
      bbox_iou ((0 : ℝ), 0, 1, 1) (5, 5, 6, 6) true false false false = 0 ∧
      (0 ≤ bbox_iou ((0 : ℝ), 0, 2, 3) (1, 1, 4, 4) true false false false ∧
        bbox_iou ((0 : ℝ), 0, 2, 3) (1, 1, 4, 4) true false false false ≤ 1) :=
  ⟨iou_range_and_identity_values.2.1 0 0 2 2 (by norm_num) (by norm_num),
    iou_range_and_identity_values.2.2.1 0 0 1 1 5 5 6 6 (by norm_num),
    iou_range_and_identity_values.2.2.2.2.1 0 0 2 3 1 1 4 4 (by norm_num)
      (by norm_num) (by norm_num) (by norm_num)⟩

/-! ## Helper lemmas: NMS -/

theorem filterP_nil (P : α → Prop) [DecidablePred P] (l : List α)
    (h : ∀ a ∈ l, ¬ P a) : filterP P l = [] := by
  induction l with
  | nil => rfl
  | cons a t ih =>
    rw [filterP, if_neg (h a (List.mem_cons_self a t)),
      ih fun b hb => h b (List.mem_cons_of_mem a hb)]

theorem nmsGreedyAux_nil (ag : Bool) (thr : ℚ) (fuel : ℕ) :
    nmsGreedyAux ag thr fuel [] = [] := by
  cases fuel <;> rfl

theorem nmsGreedyAux_subset (ag : Bool) (thr : ℚ) :
    ∀ (fuel : ℕ) (l : List Det), ∀ d ∈ nmsGreedyAux ag thr fuel l, d ∈ l := by
  intro fuel
  induction fuel with
  | zero => intro l d h; cases h
  | succ n ih =>
    intro l d h
    cases l with
    | nil => cases h
    | cons a t =>
      rw [nmsGreedyAux] at h
      rcases List.mem_cons.mp h with h1 | h1
      · exact h1 ▸ List.mem_cons_self a t
      · exact List.mem_cons_of_mem a (filterP_subset _ _ d (ih _ d h1)).1

theorem mem_sortByConfDesc (l : List Det) (d : Det) :
    d ∈ sortByConfDesc l ↔ d ∈ l :=
  (List.perm_insertionSort confGE l).mem_iff

theorem classFilter_subset (classes : Option (List ℚ)) (dets : List Det) :
    ∀ d ∈ classFilter classes dets, d ∈ dets := by
  intro d hd
  cases classes with
  | none => exact hd
  | some cs =>
    rw [classFilter] at hd
    by_cases h : cs = []
    · rw [if_pos h] at hd; exact hd
    · rw [if_neg h] at hd; exact (filterP_subset _ _ d hd).1

/-- Both candidate branches keep only rows whose final confidence strictly
exceeds the threshold. -/
theorem detCandidates_conf (ct : ℚ) (nc : ℕ) (rows : List PRow) :
    ∀ d ∈ detCandidates ct nc rows, ct < d.conf := by
  intro d hd
  simp only [detCandidates] at hd
  by_cases h : 1 < nc
  · rw [if_pos h] at hd
    rcases List.mem_flatMap.mp hd with ⟨r, _, hdr⟩
    rcases List.mem_map.mp hdr with ⟨p, hp, rfl⟩
    exact (filterP_subset _ _ p hp).2
  · rw [if_neg h] at hd
    exact (filterP_subset _ _ d hd).2

/-- Greedy suppression of a group of mutually overlapping candidates keeps
exactly the highest-confidence one. -/
theorem nmsGreedy_single (ag : Bool) (thr : ℚ) (l : List Det) (hne : l ≠ [])
    (hmut : ∀ a ∈ l, ∀ b ∈ l, thr < box_iou_pair (offBox ag a) (offBox ag b)) :
    ∃ m, m ∈ l ∧ nmsGreedy ag thr (sortByConfDesc l) = [m] ∧
      ∀ e ∈ l, e.conf ≤ m.conf := by
  have hperm := List.perm_insertionSort confGE l
  cases hs : sortByConfDesc l with
  | nil =>
    rw [sortByConfDesc] at hs
    exact absurd ((hs ▸ hperm).symm.eq_nil) hne
  | cons m rest =>
    have hperm' : List.Perm (m :: rest) l := hs ▸ hperm
    have hm : m ∈ l := hperm'.mem_iff.mp (List.mem_cons_self m rest)
    have hsorted : List.Sorted confGE (m :: rest) := by
      have := List.sorted_insertionSort confGE l
      rw [show List.insertionSort confGE l = sortByConfDesc l from rfl, hs] at this
      exact this
    have hmax : ∀ e ∈ l, e.conf ≤ m.conf := by
      intro e he
      rcases List.mem_cons.mp (hperm'.mem_iff.mpr he) with h1 | h1
      · exact h1 ▸ le_refl _
      · exact (List.sorted_cons.mp hsorted).1 e h1
    refine ⟨m, hm, ?_, hmax⟩
    have hrest_sub : ∀ e ∈ rest, e ∈ l := fun e he =>
      hperm'.mem_iff.mp (List.mem_cons_of_mem m he)
    have hfil : filterP
        (fun e => ¬ thr < box_iou_pair (offBox ag m) (offBox ag e)) rest = [] :=
      filterP_nil _ rest (fun e he hne' => hne' (hmut m hm e (hrest_sub e he)))
    rw [nmsGreedy, List.length_cons]
    rw [show nmsGreedyAux ag thr (rest.length + 1) (m :: rest) =
        m :: nmsGreedyAux ag thr rest.length
          (filterP (fun e => ¬ thr < box_iou_pair (offBox ag m) (offBox ag e)) rest)
      from rfl]
    rw [hfil, nmsGreedyAux_nil]

/-! ## Claim C10 -/

/-- C10: every detection returned by `non_max_suppression` has final
confidence (column 4, objectness times class score) strictly greater than
`conf_thres`, in both the multi-label and the best-class branch. -/
theorem nms_conf_above_threshold (ct it : ℚ) (classes : Option (List ℚ))
    (ag : Bool) (nc : ℕ) (rows : List PRow) :
    ∀ d ∈ non_max_suppression_image ct it classes ag nc rows, ct < d.conf := by
  intro d hd
  simp only [non_max_suppression_image] at hd
  have h1 : d ∈ nmsGreedy ag it (sortByConfDesc (classFilter classes (detCandidates ct nc rows))) :=
    List.take_subset _ _ hd
  have h2 := nmsGreedyAux_subset ag it _ _ d h1
  have h3 := (mem_sortByConfDesc _ d).mp h2
  have h4 := classFilter_subset classes _ d h3
  exact detCandidates_conf ct nc rows d h4

/-- C10 witness: the single surviving detection of a concrete image has
confidence above the threshold. -/
theorem nms_conf_above_threshold_witness :
    (1 : ℚ)/10 < Det.conf ⟨(8, 8, 12, 12), 18/25, 0⟩ :=
  nms_conf_above_threshold (1/10) (1/2) none false 1 [⟨10, 10, 4, 4, 9/10, [8/10]⟩]
    ⟨(8, 8, 12, 12), 18/25, 0⟩
    (by norm_num [non_max_suppression_image, detCandidates, filterP, listMaxIdx,
      listMaxIdxAux, xywh2xyxy_row, classFilter, sortByConfDesc, List.insertionSort,
      List.orderedInsert, confGE, nmsGreedy, nmsGreedyAux, offBox, box_iou_pair,
      box_iou_denom, box_inter, box_area, min_def, max_def, max_det])

/-! ## Claim C7 -/

/-- C7: on an image whose candidates are two identical boxes, NMS at IoU
threshold 0.5 returns exactly one detection; greedy suppression keeps the
highest-confidence box of any group of mutually overlapping (offset) boxes;
and the surviving detections are capped at `max_det = 300`. -/
theorem nms_duplicate_suppression_and_cap :
    (non_max_suppression_image (1/10) (1/2) none false 1
        [⟨10, 10, 4, 4, 9/10, [8/10]⟩, ⟨10, 10, 4, 4, 9/10, [8/10]⟩]).length = 1 ∧
      (∀ (ct it : ℚ) (classes : Option (List ℚ)) (ag : Bool) (nc : ℕ)
          (rows : List PRow),
        (non_max_suppression_image ct it classes ag nc rows).length ≤ max_det) ∧
      (∀ (ag : Bool) (thr : ℚ) (l : List Det), l ≠ [] →
        (∀ a ∈ l, ∀ b ∈ l, thr < box_iou_pair (offBox ag a) (offBox ag b)) →
        ∃ m, m ∈ l ∧ nmsGreedy ag thr (sortByConfDesc l) = [m] ∧
          ∀ e ∈ l, e.conf ≤ m.conf) := by
  refine ⟨?_, ?_, nmsGreedy_single⟩
  · norm_num [non_max_suppression_image, detCandidates, filterP, listMaxIdx,
      listMaxIdxAux, xywh2xyxy_row, classFilter, sortByConfDesc, List.insertionSort,
      List.orderedInsert, confGE, nmsGreedy, nmsGreedyAux, offBox, box_iou_pair,
      box_iou_denom, box_inter, box_area, min_def, max_def, max_det]
  · intro ct it classes ag nc rows
    simp only [non_max_suppression_image]
    rw [List.length_take]
    exact min_le_left _ _

/-- C7 witness: the mutually-overlapping-group statement applied to a concrete
singleton group. -/
theorem nms_duplicate_suppression_and_cap_witness :
    ∃ m, m ∈ [(⟨(0, 0, 2, 2), 1, 0⟩ : Det)] ∧
      nmsGreedy false (1/2) (sortByConfDesc [⟨(0, 0, 2, 2), 1, 0⟩]) = [m] ∧
      ∀ e ∈ [(⟨(0, 0, 2, 2), 1, 0⟩ : Det)], e.conf ≤ m.conf :=
  nms_duplicate_suppression_and_cap.2.2 false (1/2) [⟨(0, 0, 2, 2), 1, 0⟩]
    (by simp)
    (by
      intro a ha b hb
      rw [List.mem_singleton.mp ha, List.mem_singleton.mp hb]
      norm_num [box_iou_pair, box_iou_denom, box_inter, box_area, offBox,
        min_def, max_def])

/-! ## Helper lemmas: loss elements -/

theorem sigmoidR_pos (x : ℝ) : 0 < sigmoidR x := by
  rw [sigmoidR]
  have h := Real.exp_pos (-x)
  positivity

theorem sigmoidR_lt_one (x : ℝ) : sigmoidR x < 1 := by
  rw [sigmoidR]
  have h := Real.exp_pos (-x)
  rw [div_lt_one (by linarith)]
  linarith

theorem bceElem_nonneg (pw z x : ℝ) (hpw : 0 ≤ pw) (hz0 : 0 ≤ z) (hz1 : z ≤ 1) :
    0 ≤ bceElem pw z x := by
  rw [bceElem]
  have hs0 := sigmoidR_pos x
  have hs1 := sigmoidR_lt_one x
  have hlog1 : Real.log (sigmoidR x) ≤ 0 := Real.log_nonpos (le_of_lt hs0) (le_of_lt hs1)
  have hlog2 : Real.log (1 - sigmoidR x) ≤ 0 :=
    Real.log_nonpos (by linarith) (by linarith)
  have h1 : pw * z * Real.log (sigmoidR x) ≤ 0 :=
    mul_nonpos_of_nonneg_of_nonpos (mul_nonneg hpw hz0) hlog1
  have h2 : (1 - z) * Real.log (1 - sigmoidR x) ≤ 0 :=
    mul_nonpos_of_nonneg_of_nonpos (by linarith) hlog2
  linarith

theorem focalElem_nonneg (g pw z x : ℝ) (hpw : 0 ≤ pw) (hz0 : 0 ≤ z) (hz1 : z ≤ 1) :
    0 ≤ focalElem g pw z x := by
  rw [focalElem]
  have hs0 := sigmoidR_pos x
  have hs1 := sigmoidR_lt_one x
  have hbce := bceElem_nonneg pw z x hpw hz0 hz1
  have hpt0 : 0 ≤ z * sigmoidR x + (1 - z) * (1 - sigmoidR x) := by
    have := mul_nonneg hz0 hs0.le
    have : 0 ≤ (1 - z) * (1 - sigmoidR x) := mul_nonneg (by linarith) (by linarith)
    nlinarith [mul_nonneg hz0 hs0.le]
  have hpt1 : z * sigmoidR x + (1 - z) * (1 - sigmoidR x) ≤ 1 := by
    nlinarith [mul_nonneg hz0 (by linarith : (0:ℝ) ≤ 1 - sigmoidR x),
      mul_nonneg (by linarith : (0:ℝ) ≤ 1 - z) hs0.le]
  have haf : 0 ≤ z * (1 / 4) + (1 - z) * (1 - 1 / 4) := by nlinarith
  have hmf : 0 ≤ (1 - (z * sigmoidR x + (1 - z) * (1 - sigmoidR x))) ^ g :=
    Real.rpow_nonneg (by linarith) g
  exact mul_nonneg hbce (mul_nonneg haf hmf)

theorem criterionElem_nonneg (g pw z x : ℝ) (hpw : 0 ≤ pw) (hz0 : 0 ≤ z)
    (hz1 : z ≤ 1) : 0 ≤ criterionElem g pw z x := by
  rw [criterionElem]
  split
  · exact focalElem_nonneg g pw z x hpw hz0 hz1
  · exact bceElem_nonneg pw z x hpw hz0 hz1

theorem gridSum_nonneg (bs na gh gw : ℕ) (f : ℤ → ℤ → ℤ → ℤ → ℝ)
    (h : ∀ b a y x, 0 ≤ f b a y x) : 0 ≤ gridSum bs na gh gw f := by
  rw [gridSum]
  refine Finset.sum_nonneg fun b _ => Finset.sum_nonneg fun a _ =>
    Finset.sum_nonneg fun y _ => Finset.sum_nonneg fun x _ => h b a y x

theorem listMeanR_nonneg (l : List ℝ) (h : ∀ a ∈ l, 0 ≤ a) : 0 ≤ listMeanR l := by
  rw [listMeanR]
  exact div_nonneg (List.sum_nonneg h) (Nat.cast_nonneg _)

theorem giouOf_le_one (p : SPred) (r : ARow) (haw : 0 ≤ r.cand.aw)
    (hah : 0 ≤ r.cand.ah) (hgw : 0 ≤ r.cand.gw) (hgh : 0 ≤ r.cand.gh) :
    giouOf p r ≤ 1 := by
  rw [giouOf, pboxOf, tboxROf]
  apply ciou_le_one
  · exact mul_nonneg (sq_nonneg _) (by exact_mod_cast haw)
  · exact mul_nonneg (sq_nonneg _) (by exact_mod_cast hah)
  · exact_mod_cast hgw
  · exact_mod_cast hgh

theorem tobjOf_bounds (gr : ℝ) (p : SPred) (rows : List ARow)
    (hgr0 : 0 ≤ gr) (hgr1 : gr ≤ 1)
    (hrows : ∀ r ∈ rows, giouOf p r ≤ 1) :
    ∀ b a y x, 0 ≤ tobjOf gr p rows b a y x ∧ tobjOf gr p rows b a y x ≤ 1 := by
  rw [tobjOf]
  have main : ∀ (l : List ARow) (f0 : ℤ → ℤ → ℤ → ℤ → ℝ),
      (∀ b a y x, 0 ≤ f0 b a y x ∧ f0 b a y x ≤ 1) →
      (∀ r ∈ l, giouOf p r ≤ 1) →
      ∀ b a y x,
        0 ≤ (l.foldl
          (fun f r => updFun f (rowKey r) ((1 - gr) + gr * max (giouOf p r) 0)) f0)
            b a y x ∧
        (l.foldl
          (fun f r => updFun f (rowKey r) ((1 - gr) + gr * max (giouOf p r) 0)) f0)
            b a y x ≤ 1 := by
    intro l
    induction l with
    | nil => intro f0 h0 _ b a y x; exact h0 b a y x
    | cons r t ih =>
      intro f0 h0 hl b a y x
      rw [List.foldl_cons]
      apply ih
      · intro b' a' y' x'
        rw [updFun]
        split
        · have hg := hl r (List.mem_cons_self r t)
          have hmax0 : (0 : ℝ) ≤ max (giouOf p r) 0 := le_max_right _ _
          have hmax1 : max (giouOf p r) 0 ≤ 1 := max_le hg (by norm_num)
          constructor <;> nlinarith
        · exact h0 b' a' y' x'
      · intro r' hr'
        exact hl r' (List.mem_cons_of_mem r hr')
  exact main rows _ (fun b a y x => by norm_num) hrows

theorem lobjOf_nonneg (g pw : ℝ) (p : SPred) (tobj : ℤ → ℤ → ℤ → ℤ → ℝ)
    (hpw : 0 ≤ pw)
    (htobj : ∀ b a y x, 0 ≤ tobj b a y x ∧ tobj b a y x ≤ 1) :
    0 ≤ lobjOf g pw p tobj := by
  rw [lobjOf]
  refine div_nonneg (gridSum_nonneg _ _ _ _ _ fun b a y x => ?_) (Nat.cast_nonneg _)
  exact criterionElem_nonneg g pw _ _ hpw (htobj b a y x).1 (htobj b a y x).2

theorem lclsOf_nonneg (g pw : ℝ) (nc : ℕ) (p : SPred) (rows : List ARow)
    (hpw : 0 ≤ pw) : 0 ≤ lclsOf g pw nc p rows := by
  rw [lclsOf]
  refine div_nonneg (List.sum_nonneg fun v hv => ?_) (Nat.cast_nonneg _)
  rcases List.mem_map.mp hv with ⟨r, _, rfl⟩
  refine Finset.sum_nonneg fun c _ => ?_
  refine criterionElem_nonneg g pw _ _ hpw ?_ ?_ <;> split <;>
    norm_num [smooth_BCE]

theorem balance_nonneg (np i : ℕ) : 0 ≤ balance np i := by
  rw [balance]
  split
  · rcases i with _ | _ | _ | i <;> norm_num [List.getD]
  · rcases i with _ | _ | _ | _ | i <;> norm_num [List.getD]

/-- Nonnegativity of the per-scale loss accumulators, and vanishing of the
classification accumulator when `nc = 1`. -/
theorem lossScales_props (g cls_pw obj_pw gr : ℝ) (thr : ℚ) (nc np : ℕ)
    (targets : List Tgt)
    (hclspw : 0 ≤ cls_pw) (hobjpw : 0 ≤ obj_pw) (hgr0 : 0 ≤ gr) (hgr1 : gr ≤ 1)
    (htgt : ∀ t ∈ targets, 0 ≤ t.w ∧ 0 ≤ t.h) :
    ∀ (pairs : List (SPred × List (ℚ × ℚ))) (i : ℕ),
      (∀ pr ∈ pairs, ∀ a ∈ pr.2, 0 ≤ a.1 ∧ 0 ≤ a.2) →
      (0 ≤ (lossScales g cls_pw obj_pw gr thr nc np targets i pairs).1 ∧
        0 ≤ (lossScales g cls_pw obj_pw gr thr nc np targets i pairs).2.1 ∧
        0 ≤ (lossScales g cls_pw obj_pw gr thr nc np targets i pairs).2.2) ∧
      (nc = 1 → (lossScales g cls_pw obj_pw gr thr nc np targets i pairs).2.2 = 0) := by
  intro pairs
  induction pairs with
  | nil =>
    intro i _
    refine ⟨⟨le_refl 0, le_refl 0, le_refl 0⟩, fun _ => rfl⟩
  | cons pr rest ih =>
    intro i hanc
    rcases pr with ⟨sp, anchors⟩
    have hanc_here : ∀ a ∈ anchors, 0 ≤ a.1 ∧ 0 ≤ a.2 :=
      hanc (sp, anchors) (List.mem_cons_self _ _)
    have hanc_rest : ∀ pr ∈ rest, ∀ a ∈ pr.2, 0 ≤ a.1 ∧ 0 ≤ a.2 :=
      fun pr hpr => hanc pr (List.mem_cons_of_mem _ hpr)
    have hrowfacts : ∀ r ∈ scaleRows thr sp.gw sp.gh anchors targets,
        giouOf sp r ≤ 1 := by
      intro r hr
      have hsurv := (mem_scaleRows thr sp.gw sp.gh anchors targets r hr).1
      have hmem := mem_survivors thr sp.gw sp.gh anchors targets r.cand hsurv
      have hprov := mem_scaleCands sp.gw sp.gh anchors targets r.cand hmem.1
      have ha := hanc_here (r.cand.aw, r.cand.ah) hprov.2.1
      have hw := htgt r.cand.tgt hprov.1
      have hgw : 0 ≤ r.cand.gw := by
        rw [hprov.2.2.2.2.1]
        exact mul_nonneg hw.1 (by exact_mod_cast Nat.cast_nonneg sp.gw)
      have hgh : 0 ≤ r.cand.gh := by
        rw [hprov.2.2.2.2.2]
        exact mul_nonneg hw.2 (by exact_mod_cast Nat.cast_nonneg sp.gh)
      exact giouOf_le_one sp r ha.1 ha.2 hgw hgh
    have hlbox : 0 ≤ (if scaleRows thr sp.gw sp.gh anchors targets ≠ [] then
        listMeanR ((scaleRows thr sp.gw sp.gh anchors targets).map
          fun r => 1 - giouOf sp r) else 0) := by
      split
      · refine listMeanR_nonneg _ fun v hv => ?_
        rcases List.mem_map.mp hv with ⟨r, hr, rfl⟩
        have := hrowfacts r hr
        linarith
      · exact le_refl 0
    have hlobj : 0 ≤ lobjOf g obj_pw sp
        (tobjOf gr sp (scaleRows thr sp.gw sp.gh anchors targets)) * balance np i :=
      mul_nonneg
        (lobjOf_nonneg g obj_pw sp _ hobjpw
          (tobjOf_bounds gr sp _ hgr0 hgr1 hrowfacts))
        (balance_nonneg np i)
    have hlcls : 0 ≤ (if 1 < nc ∧ scaleRows thr sp.gw sp.gh anchors targets ≠ [] then
        lclsOf g cls_pw nc sp (scaleRows thr sp.gw sp.gh anchors targets) else 0) := by
      split
      · exact lclsOf_nonneg g cls_pw nc sp _ hclspw
      · exact le_refl 0
    have hrec := ih (i + 1) hanc_rest
    constructor
    · refine ⟨?_, ?_, ?_⟩
      · simp only [lossScales]
        exact add_nonneg hlbox hrec.1.1
      · simp only [lossScales]
        exact add_nonneg hlobj hrec.1.2.1
      · simp only [lossScales]
        exact add_nonneg hlcls hrec.1.2.2
    · intro hnc
      simp only [lossScales]
      have hcond : ¬ (1 < nc ∧ scaleRows thr sp.gw sp.gh anchors targets ≠ []) := by
        rintro ⟨h1, _⟩
        omega
      rw [if_neg hcond, hrec.2 hnc, zero_add]

/-! ## Claim C8 -/

/-- C8: `compute_loss` returns a non-negative scaled total loss (finite by
construction in this real-valued model), and when the model has a single class
(`nc = 1`) the classification component of the breakdown is exactly zero —
under nonnegative loss weights and positive-part hyperparameters, a blend
ratio `gr ∈ [0, 1]`, and well-formed (nonnegative-size) anchors and targets. -/
theorem compute_loss_nonneg_and_single_class (p : List SPred) (targets : List Tgt)
    (m : DetectorModel)
    (hgiou : 0 ≤ m.hyp.giou) (hobj : 0 ≤ m.hyp.obj) (hcls : 0 ≤ m.hyp.cls)
    (hclspw : 0 ≤ m.hyp.cls_pw) (hobjpw : 0 ≤ m.hyp.obj_pw)
    (hgr0 : 0 ≤ m.gr) (hgr1 : m.gr ≤ 1)
    (hanc : ∀ s ∈ m.anchors, ∀ a ∈ s, 0 ≤ a.1 ∧ 0 ≤ a.2)
    (htgt : ∀ t ∈ targets, 0 ≤ t.w ∧ 0 ≤ t.h) :
    0 ≤ (compute_loss p targets m).total ∧
      (m.nc = 1 → (compute_loss p targets m).lcls = 0) := by
  have hzip : ∀ pr ∈ p.zip m.anchors, ∀ a ∈ pr.2, 0 ≤ a.1 ∧ 0 ≤ a.2 :=
    fun pr hpr => hanc pr.2 (List.of_mem_zip hpr).2
  have hprops := lossScales_props (m.hyp.fl_gamma : ℝ) (m.hyp.cls_pw : ℝ)
    (m.hyp.obj_pw : ℝ) (m.gr : ℝ) m.hyp.anchor_t m.nc p.length targets
    (by exact_mod_cast hclspw) (by exact_mod_cast hobjpw)
    (by exact_mod_cast hgr0) (by exact_mod_cast hgr1)
    (fun t ht => ⟨(htgt t ht).1, (htgt t ht).2⟩)
    (p.zip m.anchors) 0 hzip
  have hs : (0 : ℝ) ≤ 3 / (p.length : ℝ) :=
    div_nonneg (by norm_num) (Nat.cast_nonneg _)
  have hf4 : (0 : ℝ) ≤ (if p.length = 4 then (1.4 : ℝ) else 1) := by
    split <;> norm_num
  have hbs : (0 : ℝ) ≤ (((p.getLast?).map SPred.bs).getD 0 : ℕ) :=
    Nat.cast_nonneg _
  constructor
  · simp only [compute_loss]
    refine mul_nonneg (add_nonneg (add_nonneg ?_ ?_) ?_) hbs
    · exact mul_nonneg (mul_nonneg hprops.1.1 (by exact_mod_cast hgiou)) hs
    · exact mul_nonneg
        (mul_nonneg (mul_nonneg hprops.1.2.1 (by exact_mod_cast hobj)) hs) hf4
    · exact mul_nonneg (mul_nonneg hprops.1.2.2 (by exact_mod_cast hcls)) hs
  · intro hnc
    simp only [compute_loss]
    rw [hprops.2 hnc, zero_mul, zero_mul]

/-- C8 witness: a 1-image batch, an 8×8 scale, one anchor, one cell-centered
ground truth matching the anchor, single class, zero raw predictions. -/
theorem compute_loss_nonneg_and_single_class_witness :
    0 ≤ (compute_loss [⟨1, 1, 8, 8, fun _ _ _ _ _ => 0⟩]
        [⟨0, 0, 5/16, 5/16, 1/8, 1/8⟩]
        ⟨⟨1/20, 1, 1/2, 1, 1, 0, 4⟩, 1, 1, [[(1, 1)]]⟩).total ∧
      (compute_loss [⟨1, 1, 8, 8, fun _ _ _ _ _ => 0⟩]
        [⟨0, 0, 5/16, 5/16, 1/8, 1/8⟩]
        ⟨⟨1/20, 1, 1/2, 1, 1, 0, 4⟩, 1, 1, [[(1, 1)]]⟩).lcls = 0 := by
  have h := compute_loss_nonneg_and_single_class
    [⟨1, 1, 8, 8, fun _ _ _ _ _ => 0⟩]
    [⟨0, 0, 5/16, 5/16, 1/8, 1/8⟩]
    ⟨⟨1/20, 1, 1/2, 1, 1, 0, 4⟩, 1, 1, [[(1, 1)]]⟩
    (by norm_num) (by norm_num) (by norm_num) (by norm_num) (by norm_num)
    (by norm_num) (by norm_num)
    (by
      intro s hs a ha
      rw [List.mem_singleton.mp hs] at ha
      rw [List.mem_singleton.mp ha]
      norm_num)
    (by
      intro t ht
      rw [List.mem_singleton.mp ht]
      norm_num)
  exact ⟨h.1, h.2 rfl⟩

end YoloV5
